import Mathlib

/-!
Verification of the mutable-resource engine (`swarm/storage/resource.go`) and
the Kademlia overlay table (`swarm/network/kademlia.go`) of the repository.

Byte strings are modelled as `List Nat` (each element a byte value `< 256`;
the encoders below only ever produce such values).  The configured 32-byte
hash, the ENS name hash, ECDSA recovery, the signer and the owner validator
are external oracles and are taken as explicit function parameters.
-/

/-- Byte strings, as in Go `[]byte`. -/
abbrev Bytes := List Nat

/-- `binary.LittleEndian.PutUint16`: the two little-endian bytes of `x`. -/
def u16le (x : Nat) : Bytes := [x % 256, x / 256 % 256]

/-- `binary.LittleEndian.PutUint32`: the four little-endian bytes of `x`. -/
def u32le (x : Nat) : Bytes :=
  [x % 256, x / 2 ^ 8 % 256, x / 2 ^ 16 % 256, x / 2 ^ 24 % 256]

/-- `binary.LittleEndian.PutUint64`: the eight little-endian bytes of `x`. -/
def u64le (x : Nat) : Bytes :=
  [x % 256, x / 2 ^ 8 % 256, x / 2 ^ 16 % 256, x / 2 ^ 24 % 256,
   x / 2 ^ 32 % 256, x / 2 ^ 40 % 256, x / 2 ^ 48 % 256, x / 2 ^ 56 % 256]

/-- Little-endian value of a byte string. -/
def leVal : Bytes → Nat
  | [] => 0
  | b :: r => b + 256 * leVal r

/-- `binary.LittleEndian.Uint16(d[i:i+2])`. -/
def readU16 (d : Bytes) (i : Nat) : Nat := leVal ((d.drop i).take 2)

/-- `binary.LittleEndian.Uint32(d[i:i+4])`. -/
def readU32 (d : Bytes) (i : Nat) : Nat := leVal ((d.drop i).take 4)

/-- `binary.LittleEndian.Uint64(d[i:i+8])`. -/
def readU64 (d : Bytes) (i : Nat) : Nat := leVal ((d.drop i).take 8)

/-!
## Varints

`binary.Uvarint` (buffer variant, used by `isMultihash`) and
`binary.ReadUvarint` (reader variant, used by `parseUpdate`).  Both read
base-128 groups, low group first; a byte `< 0x80` terminates.  The buffer
variant returns `(0, 0)` when the buffer runs out and a negative count on
64-bit overflow; the reader variant returns an error in both situations.
Accumulation is into a `uint64`, with Go's shift semantics (a shift count
`≥ 64` yields `0`, here obtained by reducing `mod 2^64`).
-/

/-- Core loop of `binary.Uvarint`: remaining buffer, accumulator `x`,
shift `s`, byte index `i`.  Returns Go's `(value, bytesRead)` pair. -/
def uvarintAux : Bytes → Nat → Nat → Nat → Nat × Int
  | [], _, _, _ => (0, 0)
  | b :: rest, x, s, i =>
    if b < 128 then
      if 9 < i ∨ (i = 9 ∧ 1 < b) then (0, -(i + 1 : Int))
      else ((x ||| (b <<< s)) % 2 ^ 64, (i + 1 : Int))
    else uvarintAux rest ((x ||| (b % 128 <<< s)) % 2 ^ 64) (s + 7) (i + 1)

/-- `binary.Uvarint(buf)`. -/
def uvarint (d : Bytes) : Nat × Int := uvarintAux d 0 0 0

/-- Core loop of `binary.ReadUvarint`: `fuel` counts the remaining loop
iterations down from `MaxVarintLen64 = 10`; on success the value and the
unread rest of the buffer are returned, `none` is any error (EOF or
overflow). -/
def readUvarintAux : Nat → Bytes → Nat → Nat → Option (Nat × Bytes)
  | 0, _, _, _ => none
  | _ + 1, [], _, _ => none
  | fuel + 1, b :: rest, x, s =>
    if b < 128 then
      if fuel = 0 ∧ 1 < b then none
      else some ((x ||| (b <<< s)) % 2 ^ 64, rest)
    else readUvarintAux fuel rest ((x ||| (b % 128 <<< s)) % 2 ^ 64) (s + 7)

/-- `binary.ReadUvarint` on a `bytes.Buffer` holding `d`. -/
def readUvarint (d : Bytes) : Option (Nat × Bytes) := readUvarintAux 10 d 0 0

/-- `isMultihash(data)`: parses two uvarints (hash type, hash length) and
checks that `hashLength` bytes remain; returns the length in bytes of the
multihash (`0` on failure).  The hash length is converted `uint64 → int`
(64-bit two's complement), so the result is an `Int` and can be negative,
exactly as in Go. -/
def isMultihash (d : Bytes) : Int :=
  let t1 := uvarint d
  if t1.2 ≤ 0 then 0
  else
    let cursor := t1.2.toNat
    let t2 := uvarint (d.drop cursor)
    if t2.2 ≤ 0 then 0
    else
      let cursor := cursor + t2.2.toNat
      let inthashlength : Int :=
        if t2.1 < 2 ^ 63 then (t2.1 : Int) else (t2.1 : Int) - 2 ^ 64
      if ((d.length - cursor : Nat) : Int) < inthashlength then 0
      else (cursor : Int) + inthashlength

/-!
## Error taxonomy and outcomes

`GoErr` mirrors the resource error codes (`NewResourceError` tags) plus
`.plain` for the untagged `errors.New("Corrupt multihash data")` and
`.external` for oracle errors the code returns unchanged.  `Res α` is the
outcome of a Go function that can also panic (out-of-range slice index,
`make` with a negative size, nil dereference).
-/

inductive GoErr : Type
  | notFound
  | io
  | unauthorized
  | invalidValue
  | dataOverflow
  | nothingToReturn
  | invalidSignature
  | notSynced
  | periodDepth
  | corruptData
  | init
  | plain
  | external
  deriving DecidableEq, Repr

inductive Res (α : Type) : Type
  | ok (a : α)
  | err (e : GoErr)
  | panic
  deriving DecidableEq, Repr

def Res.isOk {α : Type} : Res α → Bool
  | .ok _ => true
  | _ => false

def Res.isErr {α : Type} : Res α → Bool
  | .err _ => true
  | _ => false

/-- A swarm chunk: its key and its data (`SData`). -/
structure Chunk : Type where
  key : Bytes
  SData : Bytes
  deriving DecidableEq, Repr

/-!
## Wire codec: metadata chunks
-/

/-- `newMetaChunk(name, startBlock, frequency)`: body is
`0x00 0x00 ‖ startBlock (u64 LE) ‖ frequency (u64 LE) ‖ name`, and the key
is the content hash of the body under the configured hash `H`. -/
def newMetaChunk (H : Bytes → Bytes) (name : Bytes) (startBlock frequency : Nat) :
    Chunk :=
  let data := [0, 0] ++ u64le startBlock ++ u64le frequency ++ name
  { key := H data, SData := data }

/-- `resource.UnmarshalBinary(data)` as used by `LoadResource` on
`chunk.SData[2:]`: recovers `(startBlock, frequency, name)`. -/
def metaUnmarshal (d : Bytes) : Nat × Nat × Bytes :=
  (readU64 d 0, readU64 d 8, d.drop 16)

/-!
## Wire codec: update chunks
-/

/-- A parsed resource update (the tuple returned by `parseUpdate`). -/
structure Upd : Type where
  sig : Option Bytes
  period : Nat
  version : Nat
  name : Bytes
  data : Bytes
  multihash : Bool
  deriving DecidableEq, Repr

/-- `newUpdateChunk(key, signature, period, version, name, data, datalength)`:
`headerlength (u16 LE) ‖ datalength (u16 LE) ‖ period (u32 LE) ‖
version (u32 LE) ‖ name ‖ data ‖ [signature]` with
`headerlength = len(name) + 8`; the signature (65 bytes) is appended iff
present. -/
def newUpdateChunk (key : Bytes) (signature : Option Bytes)
    (period version : Nat) (name data : Bytes) (datalength : Nat) : Chunk :=
  let headerlength := name.length + 8
  let sdata := u16le headerlength ++ u16le datalength ++ u32le period ++
    u32le version ++ name ++ data ++
    (match signature with | none => [] | some s => s)
  { key := key, SData := sdata }

/-- The part of `parseUpdate` after the multihash-prefix read: the
length-consistency check on `int(headerlength + datalength + 4)` (with
Go's `uint16` wrap-around), period/version/name extraction, the multihash
body check, data extraction and the signature extraction. -/
def parseUpdateRest (hasSigner : Bool) (d : Bytes) (hl dl : Nat) : Res Upd :=
  let excl := (hl + dl + 4) % 2 ^ 16
  if d.length < excl ∨ excl < 14 then .err .nothingToReturn else
  let period := readU32 d 4
  let version := readU32 d 8
  if hl < 8 ∨ d.length < hl + 4 then .panic else
  let name := (d.drop 12).take (hl - 8)
  let cursor := 4 + hl
  if dl = 0 then
    let L := isMultihash (d.drop cursor)
    if (d.length : Int) ≠ cursor + L ∧ (d.length : Int) < cursor + L + 65 then
      .err .plain
    else if L < 0 then .panic else
    let idl := L.toNat
    let data := (d.drop cursor).take idl
    if hasSigner then
      if d.length < cursor + idl + 65 then .panic
      else .ok ⟨some ((d.drop (cursor + idl)).take 65),
        period, version, name, data, true⟩
    else .ok ⟨none, period, version, name, data, true⟩
  else
    if d.length < cursor + dl then .panic else
    let data := (d.drop cursor).take dl
    if hasSigner then
      if d.length < cursor + dl + 65 then .panic
      else .ok ⟨some ((d.drop (cursor + dl)).take 65),
        period, version, name, data, false⟩
    else .ok ⟨none, period, version, name, data, false⟩

/-- `parseUpdate(chunkdata)` on a handler whose signer is configured iff
`hasSigner`.  A faithful transcription of the Go control flow, including:
the `uint16` wrap-around in `chunkdata[headerlength+4:]` and in
`int(headerlength + datalength + 4)`; the out-of-range slice panics
(multihash prefix when `headerlength+4 > len`, name when
`headerlength < 8` or `headerlength+4 > len`, data, and the signature
extraction `chunkdata[cursor : cursor+signatureLength]`); and the
`make([]byte, n)` panic for a negative multihash length.  The part after
the multihash-prefix read (which Go reaches by falling through the
`datalength == 0` block) is `parseUpdateRest`. -/
def parseUpdate (hasSigner : Bool) (d : Bytes) : Res Upd :=
  if d.length < 14 then .err .nothingToReturn else
  let hl := readU16 d 0
  let dl := readU16 d 2
  if dl = 0 then
    let o := (hl + 4) % 2 ^ 16
    if d.length < o then .panic else
    match readUvarint (d.drop o) with
    | none => .err .corruptData
    | some (_, t) =>
      match readUvarint t with
      | none => .err .corruptData
      | some _ => parseUpdateRest hasSigner d hl dl
  else parseUpdateRest hasSigner d hl dl

/-!
## Keys, hashes, period arithmetic
-/

/-- `ResourceHandler.resourceHash(period, version, namehash)`:
`H(period (u32 LE) ‖ version (u32 LE) ‖ namehash)`. -/
def resourceHash (H : Bytes → Bytes) (period version : Nat) (namehash : Bytes) :
    Bytes :=
  H (u32le period ++ u32le version ++ namehash)

/-- `ResourceHandler.keyDataHash(key, data)`: `H(key ‖ data)`, the digest
that is signed. -/
def keyDataHash (H : Bytes → Bytes) (key data : Bytes) : Bytes := H (key ++ data)

/-- `getNextPeriod(start, current, frequency)`.  `current < start` is
`ErrInvalidValue`; a zero frequency is an integer division by zero (panic);
otherwise `uint32(blockdiff/frequency + 1)` with Go's `uint64` addition and
the final `uint32` conversion. -/
def getNextPeriod (start current frequency : Nat) : Res Nat :=
  if current < start then .err .invalidValue
  else if frequency = 0 then .panic
  else .ok (((current - start) / frequency + 1) % 2 ^ 64 % 2 ^ 32)

/-!
## Handler-level operations

The oracle bundle packs everything `ResourceHandler` consumes from outside
the two source files: the configured hash, `ens.EnsNode`, the signer,
ECDSA address recovery, the owner validator, the block-height getter, the
store acknowledgement, and `idna.ToASCII`.  Fallible oracles return
`Option`/pairs mirroring the Go `(value, error)` shapes.
-/

structure Oracles : Type where
  H : Bytes → Bytes
  ensNode : Bytes → Bytes
  signer : Option (Bytes → Option Bytes)
  recover : Bytes → Bytes → Option Bytes
  ownerValidator : Option (Bytes → Bytes → Bool × Option Unit)
  getBlock : Option Nat
  putOk : Bool
  toASCII : Bytes → Option Bytes

/-- `ResourceHandler.checkAccess(name, address)`: `(true, nil)` with no
owner validator, otherwise the validator's `(ok, err)` pair. -/
def checkAccess (ownerV : Option (Bytes → Bytes → Bool × Option Unit))
    (name addr : Bytes) : Bool × Option Unit :=
  match ownerV with
  | none => (true, none)
  | some V => V name addr

/-- `ResourceHandler.Validate(key, data)`.  Parse the chunk as an update;
on success with a nil signature compare `resourceHash` with the key, with a
signature recover the signer and consult `checkAccess`; on a parse error
accept exactly the chunks longer than 18 bytes starting `0x00 0x00`.  A
parse panic propagates. -/
def Validate (o : Oracles) (key d : Bytes) : Res Bool :=
  match parseUpdate o.signer.isSome d with
  | .panic => .panic
  | .err _ => .ok (decide (18 < d.length) && decide (d.take 2 = [0, 0]))
  | .ok u =>
    match u.sig with
    | none =>
      .ok (decide (resourceHash o.H u.period u.version (o.ensNode u.name) = key))
    | some s =>
      let digest := keyDataHash o.H key u.data
      match o.recover digest s with
      | none => .ok false
      | some addr => .ok (checkAccess o.ownerValidator u.name addr).1

/-- The in-memory resource index entry (`resource`), restricted to the
fields the modelled operations read or write. -/
structure Rsrc : Type where
  startBlock : Nat
  frequency : Nat
  name : Bytes
  nameHash : Bytes
  lastPeriod : Nat
  version : Nat
  synced : Bool

/-- Final step of `update`: build the chunk (datalength `0` signals
multihash content) and send it to the store, reporting `ErrIO` unless the
store acknowledges in time. -/
def updateFinish (o : Oracles) (key : Bytes) (sig : Option Bytes)
    (nextperiod version : Nat) (name data : Bytes) (multihash : Bool) :
    Res (Bytes × Chunk) :=
  let datalength := if multihash then 0 else data.length
  let chunk := newUpdateChunk key sig nextperiod version name data datalength
  if o.putOk then .ok (key, chunk) else .err .io

/-- `ResourceHandler.update(name, data, multihash)`: the full pipeline of
checks (empty data, unbound store, unknown or unsynced resource, the
datalimit computed as `chunkSize - int64(signaturelength-len(name)-12)`
exactly as written in the source, block height, next period, version
bump on a period collision, signing and access control), ending in
`updateFinish`.  `resources` is the handler's index keyed by name hash. -/
def update (o : Oracles) (resources : Bytes → Option Rsrc)
    (store : Option Unit) (name data : Bytes) (multihash : Bool) :
    Res (Bytes × Chunk) :=
  if data.length = 0 then .err .invalidValue
  else
    match store with
    | none => .err .init
    | some _ =>
      let signaturelength : Int := if o.signer.isSome then 65 else 0
      let nameHash := o.ensNode name
      match resources nameHash with
      | none => .err .notFound
      | some rsrc =>
        if rsrc.synced = false then .err .notSynced
        else
          let datalimit : Int := 4096 - (signaturelength - name.length - 12)
          if (data.length : Int) > datalimit then .err .dataOverflow
          else
            match o.getBlock with
            | none => .err .io
            | some currentblock =>
              match getNextPeriod rsrc.startBlock currentblock rsrc.frequency with
              | .panic => .panic
              | .err e => .err e
              | .ok nextperiod =>
                let version :=
                  if rsrc.lastPeriod = nextperiod then (rsrc.version + 1) % 2 ^ 32
                  else 1
                let key := resourceHash o.H nextperiod version rsrc.nameHash
                match o.signer with
                | none => updateFinish o key none nextperiod version name data multihash
                | some sgn =>
                  let digest := keyDataHash o.H key data
                  match sgn digest with
                  | none => .err .invalidSignature
                  | some sig =>
                    match o.recover digest sig with
                    | none => .err .invalidSignature
                    | some addr =>
                      let ca := checkAccess o.ownerValidator name addr
                      if ca.2.isSome then .err .io
                      else if ca.1 = false then .err .unauthorized
                      else updateFinish o key (some sig) nextperiod version name
                        data multihash

/-- `isSafeName(name)`: non-empty and a fixed point of `idna.ToASCII`. -/
def isSafeName (toASCII : Bytes → Option Bytes) (name : Bytes) : Bool :=
  if name = [] then false
  else
    match toASCII name with
    | none => false
    | some v => decide (v = name)

/-- Modelled from the spec: `NetStore.Put` is not part of the two source
files (§6 treats `ChunkStore.Put(chunk)` as an oracle over the bound
store's state).  Calling it through a nil `*NetStore` dereferences the
missing store state, a panic; with a bound store the chunk is accepted. -/
def netStorePut (store : Option Unit) (_c : Chunk) : Res Unit :=
  match store with
  | none => .panic
  | some _ => .ok ()

/-- `NewResource` after the signer/access checks: query the block height,
build the metadata chunk and hand it to `chunkStore.Put` without any check
that a store is bound. -/
def newResourcePost (o : Oracles) (store : Option Unit) (name : Bytes)
    (frequency : Nat) : Res Bytes :=
  match o.getBlock with
  | none => .err .external
  | some currentblock =>
    let chunk := newMetaChunk o.H name currentblock frequency
    match netStorePut store chunk with
    | .panic => .panic
    | _ => .ok chunk.key

/-- `ResourceHandler.NewResource(name, frequency)`: rejects frequency `0`
and unsafe names, optionally proves ownership via the signer, then
publishes the metadata chunk. -/
def NewResource (o : Oracles) (store : Option Unit) (name : Bytes)
    (frequency : Nat) : Res Bytes :=
  if frequency = 0 then .err .invalidValue
  else if isSafeName o.toASCII name = false then .err .invalidValue
  else
    let nameHash := o.ensNode name
    match o.signer with
    | none => newResourcePost o store name frequency
    | some sgn =>
      match sgn nameHash with
      | none => .err .invalidSignature
      | some signature =>
        match o.recover nameHash signature with
        | none => .err .invalidSignature
        | some addr =>
          let ca := checkAccess o.ownerValidator name addr
          if ca.2.isSome then .err .external
          else if ca.1 = false then .err .unauthorized
          else newResourcePost o store name frequency

/-!
## Kademlia overlay table

Addresses are bit strings; the proximity order of two addresses is the
number of leading bits they share.  `pot.EachNeighbour` enumerates entries
by descending proximity order relative to the base, which we model by
sorting the proximity orders in descending order.
-/

abbrev Addr := List Bool

/-- Proximity order: index of the first differing bit (= length of the
common prefix); equal addresses get their full bit length. -/
def proximity : Addr → Addr → Nat
  | a :: as, b :: bs => if a = b then proximity as bs + 1 else 0
  | _, _ => 0

/-- Insert into a descending-sorted list, keeping it sorted. -/
def insertDesc (x : Nat) : List Nat → List Nat
  | [] => [x]
  | y :: ys => if y < x then x :: y :: ys else y :: insertDesc x ys

/-- Sort in descending order. -/
def sortDesc (l : List Nat) : List Nat := l.foldr insertDesc []

/-- The proximity orders of the live connections, in the order
`pot.EachNeighbour(base, pof, ·)` visits them (nearest first). -/
def poList (base : Addr) (conns : List Addr) : List Nat :=
  sortDesc (conns.map (proximity base))

/-- The `EachNeighbour` callback of `Kademlia.depth`: count entries,
remember the last proximity order, stop once `MinProxBinSize` entries have
been seen. -/
def depthLoop (m : Nat) : List Nat → Nat → Nat → Nat
  | [], _, dep => dep
  | po :: rest, size, _ => if size + 1 < m then depthLoop m rest (size + 1) po else po

/-- `Kademlia.depth()`: `0` when fewer than `MinProxBinSize` live
connections exist, otherwise the proximity order at which the neighbour
scan reaches `MinProxBinSize` entries. -/
def kadDepth (base : Addr) (conns : List Addr) (minProxBinSize : Nat) : Nat :=
  if conns.length < minProxBinSize then 0
  else depthLoop minProxBinSize (poList base conns) 0 0

/-- Kademlia table state: the known-address set and the live-connection
set (the `pot`s keyed by address). -/
structure KadState : Type where
  addrs : Finset Addr
  conns : Finset Addr

/-- One completed `Register`, `On` or `Off` call, as it changes the two
address sets.  `Register` unions the drained peers into `addrs` (or
returns an error leaving the state unchanged when the stream contains the
base address); `On` inserts into `conns` and, when newly inserted, into
`addrs`; `Off` replaces the `addrs` entry (the key stays present) and
deletes from `conns`, and requires the peer to be a known address (its
absence is a programmer-error panic in the source). -/
inductive KadStep (base : Addr) : KadState → KadState → Prop
  | register (s : KadState) (ps : List Addr) (h : base ∉ ps) :
      KadStep base s ⟨s.addrs ∪ ps.toFinset, s.conns⟩
  | registerSelf (s : KadState) (ps : List Addr) (h : base ∈ ps) :
      KadStep base s s
  | onConn (s : KadState) (p : Addr) :
      KadStep base s
        (if p ∈ s.conns then s else ⟨insert p s.addrs, insert p s.conns⟩)
  | offConn (s : KadState) (p : Addr) (h : p ∈ s.addrs) :
      KadStep base s ⟨s.addrs, s.conns.erase p⟩

/-- States reachable from a new Kademlia table by completed operations. -/
def kadReachable (base : Addr) (s : KadState) : Prop :=
  Relation.ReflTransGen (KadStep base) ⟨∅, ∅⟩ s

/-!
## Exactness of a multihash payload

`UpdateMultihash` only demands `isMultihash(data) != 0`; round-tripping an
update with multihash content additionally needs the payload to consist of
exactly one multihash (no trailing bytes), which is this predicate.
-/

/-- The payload is exactly one well-formed multihash: both uvarints read,
the length fits in a non-negative `int64`, and the declared hash occupies
the rest of the payload exactly. -/
def mhExactB (d : Bytes) : Bool :=
  let t1 := uvarint d
  if t1.2 ≤ 0 then false
  else
    let t2 := uvarint (d.drop t1.2.toNat)
    if t2.2 ≤ 0 then false
    else
      decide (t2.1 < 2 ^ 63) &&
        decide (d.length = t1.2.toNat + t2.2.toNat + t2.1)

/-!
## Outcome classification of `parseUpdate`

Decidable conditions, in terms of the decoded header fields only, that
classify every input of `parseUpdate` as error / panic / success.
-/

/-- Both multihash-prefix uvarints can be read from `t`. -/
def twoUvarintsOK (t : Bytes) : Bool :=
  match readUvarint t with
  | none => false
  | some (_, r) => (readUvarint r).isSome

/-- The input gets past the multihash-prefix read of `parseUpdate` without
an error or a panic (the prefix is only read when `datalength = 0`). -/
def c5preOK (d : Bytes) : Bool :=
  let hl := readU16 d 0
  let dl := readU16 d 2
  let o := (hl + 4) % 2 ^ 16
  decide (14 ≤ d.length) &&
    (if dl = 0 then decide (o ≤ d.length) && twoUvarintsOK (d.drop o) else true)

/-- The length-consistency check on `int(headerlength+datalength+4)`
(computed with Go's `uint16` wrap-around) passes. -/
def c5exclOK (d : Bytes) : Bool :=
  let excl := (readU16 d 0 + readU16 d 2 + 4) % 2 ^ 16
  decide (14 ≤ excl) && decide (excl ≤ d.length)

/-- The multihash body misaligns with the chunk end (the condition of the
`"Corrupt multihash data"` error). -/
def c5mhMisalign (d : Bytes) : Bool :=
  let hl := readU16 d 0
  let L := isMultihash (d.drop (4 + hl))
  decide ((d.length : Int) ≠ 4 + hl + L) &&
    decide ((d.length : Int) < 4 + hl + L + 65)

/-- `parseUpdate` returns an error value exactly on these inputs. -/
def c5errB (d : Bytes) : Bool :=
  let hl := readU16 d 0
  let dl := readU16 d 2
  let o := (hl + 4) % 2 ^ 16
  decide (d.length < 14) ||
    (decide (14 ≤ d.length) && decide (dl = 0) && decide (o ≤ d.length) &&
      !twoUvarintsOK (d.drop o)) ||
    (c5preOK d && !c5exclOK d) ||
    (c5preOK d && c5exclOK d && decide (8 ≤ hl) && decide (hl + 4 ≤ d.length) &&
      decide (dl = 0) && c5mhMisalign d)

/-- `parseUpdate` panics exactly on these inputs. -/
def c5panicB (hs : Bool) (d : Bytes) : Bool :=
  let hl := readU16 d 0
  let dl := readU16 d 2
  let o := (hl + 4) % 2 ^ 16
  let L := isMultihash (d.drop (4 + hl))
  let pastName := c5preOK d && c5exclOK d && decide (8 ≤ hl) &&
    decide (hl + 4 ≤ d.length)
  (decide (14 ≤ d.length) && decide (dl = 0) && decide (d.length < o)) ||
    (c5preOK d && c5exclOK d && (decide (hl < 8) || decide (d.length < hl + 4))) ||
    (pastName && decide (dl = 0) && !c5mhMisalign d && decide (L < 0)) ||
    (pastName && decide (dl = 0) && !c5mhMisalign d && decide (0 ≤ L) && hs &&
      decide (d.length < 4 + hl + L.toNat + 65)) ||
    (pastName && decide (dl ≠ 0) && decide (d.length < 4 + hl + dl)) ||
    (pastName && decide (dl ≠ 0) && decide (4 + hl + dl ≤ d.length) && hs &&
      decide (d.length < 4 + hl + dl + 65))

/-!
## Concrete fixtures used by the witnesses
-/

/-- Oracles with identity hash and name hash, no signer, no validator. -/
def idOracles : Oracles :=
  { H := fun b => b, ensNode := fun b => b, signer := none,
    recover := fun _ _ => none, ownerValidator := none,
    getBlock := some 4242, putOk := true, toASCII := some }

/-- Oracles with an owner validator that accepts everyone. -/
def vOracles : Oracles :=
  { H := fun b => b, ensNode := fun b => b, signer := none,
    recover := fun _ _ => none,
    ownerValidator := some fun _ _ => (true, none),
    getBlock := none, putOk := true, toASCII := some }

/-- Oracles with a constant hash (cheap to evaluate), block height 0. -/
def cheapOracles : Oracles :=
  { H := fun _ => [], ensNode := fun b => b, signer := none,
    recover := fun _ _ => none, ownerValidator := none,
    getBlock := some 0, putOk := true, toASCII := some }

/-- A synced resource entry for the name `"ab"`. -/
def rsrcAB : Rsrc :=
  { startBlock := 4200, frequency := 42, name := [97, 98],
    nameHash := List.replicate 32 7, lastPeriod := 0, version := 0,
    synced := true }

/-- Index containing exactly `rsrcAB`. -/
def resAB : Bytes → Option Rsrc :=
  fun h => if h = [97, 98] then some rsrcAB else none

/-- A ten-byte name. -/
def name10 : Bytes := List.replicate 10 97

/-- A synced resource entry for `name10`. -/
def rsrc10 : Rsrc :=
  { startBlock := 0, frequency := 1, name := name10,
    nameHash := List.replicate 32 3, lastPeriod := 0, version := 0,
    synced := true }

/-- Index containing exactly `rsrc10`. -/
def res10 : Bytes → Option Rsrc :=
  fun h => if h = name10 then some rsrc10 else none

/-- The all-zero 256-bit base address. -/
def kadBase : Addr := List.replicate 256 false

/-- A 256-bit address at proximity order `k` from `kadBase` (`k ≤ 255`). -/
def kadA (k : Nat) : Addr :=
  List.replicate k false ++ [true] ++ List.replicate (255 - k) false

/-!
## Sanity checks of the embedding on concrete inputs
-/

example : readU16 (u16le 300 ++ [7]) 0 = 300 := by decide
example : readU64 (u64le 4200) 0 = 4200 := by decide
example : uvarint [200, 3, 9] = (456, 2) := by decide
example : readUvarint [200, 3, 9] = some (456, [9]) := by decide
example : isMultihash [0, 1, 7, 9] = 3 := by decide
example : mhExactB [0, 1, 7] = true ∧ mhExactB [0, 1, 7, 9] = false := by decide
example : parseUpdate false [10, 0, 2, 0, 1, 0, 0, 0, 1, 0, 0, 0, 97, 98, 5, 6] =
    .ok ⟨none, 1, 1, [97, 98], [5, 6], false⟩ := by decide
example : parseUpdate false [11, 0, 0, 0, 1, 0, 0, 0, 2, 0, 0, 0, 97, 98, 99, 0, 1, 7] =
    .ok ⟨none, 1, 2, [97, 98, 99], [0, 1, 7], true⟩ := by decide
example : parseUpdate false [100, 0, 0, 0, 1, 0, 0, 0, 1, 0, 0, 0, 1, 1] = .panic := by
  decide
example : getNextPeriod 4200 4242 42 = .ok 2 := by decide

/-!
## C6 — `getNextPeriod`
-/

/-- C6 counterexample: the claim says `getNextPeriod(start, current,
frequency)` returns `⌊(current−start)/frequency⌋ + 1` whenever
`current ≥ start`, but the result is converted to `uint32`: at
`start = 0`, `current = 2^32`, `frequency = 1` the code returns `1`,
not `2^32 + 1`. -/
theorem C6_counterexample :
    getNextPeriod 0 (2 ^ 32) 1 = .ok 1 ∧ (2 ^ 32 - 0) / 1 + 1 ≠ 1 := by decide

/-- C6 (amended): for `frequency > 0`, `getNextPeriod` fails with
`ErrInvalidValue` exactly when `current < start`, and otherwise returns
`(⌊(current−start)/frequency⌋ + 1) mod 2^32` (the `uint32` conversion);
in particular `getNextPeriod(start, start + k·frequency, frequency) =
(k+1) mod 2^32`. -/
theorem C6_getNextPeriod_amended (start current frequency : Nat)
    (hf : 0 < frequency) (_hs : start < 2 ^ 64) (_hc : current < 2 ^ 64) :
    (current < start → getNextPeriod start current frequency = .err .invalidValue) ∧
    (start ≤ current →
      getNextPeriod start current frequency =
        .ok (((current - start) / frequency + 1) % 2 ^ 32)) ∧
    (∀ k : Nat, start + k * frequency < 2 ^ 64 →
      getNextPeriod start (start + k * frequency) frequency =
        .ok ((k + 1) % 2 ^ 32)) := by
  have hmod : ∀ a : Nat, a % 2 ^ 64 % 2 ^ 32 = a % 2 ^ 32 := fun a =>
    Nat.mod_mod_of_dvd a ⟨2 ^ 32, by norm_num⟩
  refine ⟨fun h => by simp [getNextPeriod, h], fun h => ?_, fun k _ => ?_⟩
  · rw [getNextPeriod, if_neg (Nat.not_lt.2 h), if_neg hf.ne', hmod]
  · rw [getNextPeriod, if_neg (Nat.not_lt.2 (Nat.le_add_right _ _)), if_neg hf.ne',
      hmod, Nat.add_sub_cancel_left, Nat.mul_div_cancel _ hf]

/-- C6 witness: the amended statement evaluated at
`start = 4200, current = 4242, frequency = 42`. -/
theorem C6_witness : getNextPeriod 4200 4242 42 = .ok 2 := by
  have h := (C6_getNextPeriod_amended 4200 4242 42 (by decide) (by decide)
    (by decide)).2.1 (by decide)
  exact h.trans (by decide)

/-!
## C9 — missing-signature out-of-bounds access in `parseUpdate`
-/

/-- C9: with a signer configured, `parseUpdate` is not total on
well-formed unsigned update chunks.  The 16-byte chunk below has
`headerlength = 10`, `datalength = 2` and total length
`headerlength + datalength + 4` exactly; without a signer it parses
successfully, but with a signer the signature extraction
`chunkdata[cursor : cursor+signatureLength]` indexes past the end of the
data instead of returning an error. -/
theorem C9_parseUpdate_signature_oob :
    readU16 [10, 0, 2, 0, 1, 0, 0, 0, 1, 0, 0, 0, 97, 98, 5, 6] 0 = 10 ∧
    readU16 [10, 0, 2, 0, 1, 0, 0, 0, 1, 0, 0, 0, 97, 98, 5, 6] 2 = 2 ∧
    ([10, 0, 2, 0, 1, 0, 0, 0, 1, 0, 0, 0, 97, 98, 5, 6] : Bytes).length =
      10 + 2 + 4 ∧
    parseUpdate false [10, 0, 2, 0, 1, 0, 0, 0, 1, 0, 0, 0, 97, 98, 5, 6] =
      .ok ⟨none, 1, 1, [97, 98], [5, 6], false⟩ ∧
    parseUpdate true [10, 0, 2, 0, 1, 0, 0, 0, 1, 0, 0, 0, 97, 98, 5, 6] =
      .panic := by
  decide

/-!
## C10 — `NewResource` with no bound chunk store
-/

/-- C10: `NewResource` performs no `chunkStore == nil` check.  Whenever a
call would succeed with a bound store (all validation steps pass), the
same call before `SetStore` dereferences the nil store when publishing the
metadata chunk, while `update` in the same unbound-store situation returns
`ErrInit`. -/
theorem newResource_store_cases (o : Oracles) (name : Bytes) (frequency : Nat)
    (st₁ st₂ : Option Unit) :
    (∃ e, NewResource o st₁ name frequency = .err e ∧
      NewResource o st₂ name frequency = .err e) ∨
    (NewResource o st₁ name frequency = newResourcePost o st₁ name frequency ∧
      NewResource o st₂ name frequency = newResourcePost o st₂ name frequency) := by
  unfold NewResource
  split_ifs <;> try exact .inl ⟨_, rfl, rfl⟩
  cases o.signer with
  | none => exact .inr ⟨rfl, rfl⟩
  | some sgn =>
    dsimp only
    cases sgn (o.ensNode name) with
    | none => exact .inl ⟨_, rfl, rfl⟩
    | some sigv =>
      dsimp only
      cases o.recover (o.ensNode name) sigv with
      | none => exact .inl ⟨_, rfl, rfl⟩
      | some addr =>
        dsimp only
        split_ifs <;> first
          | exact .inl ⟨_, rfl, rfl⟩
          | exact .inr ⟨rfl, rfl⟩

theorem C10_NewResource_nil_store (o : Oracles) (name : Bytes) (frequency : Nat)
    (h : (NewResource o (some ()) name frequency).isOk = true) :
    NewResource o none name frequency = .panic ∧
    ∀ (resources : Bytes → Option Rsrc) (data : Bytes) (multihash : Bool),
      data ≠ [] → update o resources none name data multihash = .err .init := by
  constructor
  · rcases newResource_store_cases o name frequency (some ()) none with
      ⟨e, h1, _⟩ | ⟨h1, h2⟩
    · rw [h1] at h; simp [Res.isOk] at h
    · rw [h2]
      rw [h1] at h
      unfold newResourcePost at h ⊢
      cases hgb : o.getBlock with
      | none => rw [hgb] at h; simp [Res.isOk] at h
      | some cb => rfl
  · intro resources data multihash hd
    simp [update, List.length_eq_zero, hd]

/-- C10 witness: with identity oracles, no signer and a valid name and
frequency, `NewResource` panics on the unbound store and `update` returns
`ErrInit`. -/
theorem C10_witness :
    NewResource idOracles none [97] 42 = .panic ∧
    update idOracles resAB none [97] [5] false = .err .init := by
  have h := C10_NewResource_nil_store idOracles [97] 42 (by decide)
  exact ⟨h.1, h.2 resAB [5] false (by decide)⟩

/-!
## C3 — the datalimit check of `update`
-/

/-- C3: code bug.  The source computes
`datalimit = chunkSize - int64(signaturelength - len(name) - 12)`, i.e.
`chunkSize + len(name) + 12 - signaturelength`, not the documented
`chunkSize - (signaturelength + len(name) + 12)`.  With no signer and a
10-byte name, a 4075-byte payload exceeds the documented limit (4074) yet
`update` accepts it and publishes a chunk of 4097 bytes — larger than
`chunkSize`, contradicting the source's own comment that an update can be
only one chunk long. -/
theorem newUpdateChunk_SData_length (key : Bytes) (sig : Option Bytes)
    (p v : Nat) (name data : Bytes) (dl : Nat) :
    (newUpdateChunk key sig p v name data dl).SData.length =
      12 + name.length + data.length +
        (match sig with | none => 0 | some s => s.length) := by
  cases sig <;> simp [newUpdateChunk, u16le, u32le] <;> omega

theorem name10_length : name10.length = 10 := by simp [name10]

theorem update_cheap_ok (data : Bytes) (h1 : data.length ≠ 0)
    (h2 : (data.length : Int) ≤ 4118) :
    update cheapOracles res10 (some ()) name10 data false =
      .ok (resourceHash cheapOracles.H 1 1 rsrc10.nameHash,
        newUpdateChunk (resourceHash cheapOracles.H 1 1 rsrc10.nameHash) none 1 1
          name10 data data.length) := by
  unfold update
  rw [if_neg h1]
  show (match res10 name10 with
    | none => Res.err GoErr.notFound
    | some rsrc => _) = _
  rw [show res10 name10 = some rsrc10 from if_pos rfl]
  show (if rsrc10.synced = false then _ else _) = _
  rw [if_neg (by decide)]
  show (if (data.length : Int) > 4096 - ((0 : Int) - name10.length - 12)
    then _ else _) = _
  rw [name10_length, if_neg (by omega)]
  rw [show cheapOracles.getBlock = some 0 from rfl]
  dsimp only
  rw [show getNextPeriod rsrc10.startBlock 0 rsrc10.frequency = Res.ok 1 by decide]
  dsimp only
  rw [if_neg (show ¬rsrc10.lastPeriod = 1 by decide)]
  rfl

theorem C3_datalimit_sign_slip :
    ((List.replicate 4075 1 : Bytes).length : Int) >
      4096 - ((0 : Int) + name10.length + 12) ∧
    update cheapOracles res10 (some ()) name10 (List.replicate 4075 1) false =
      .ok (resourceHash cheapOracles.H 1 1 rsrc10.nameHash,
        newUpdateChunk (resourceHash cheapOracles.H 1 1 rsrc10.nameHash) none 1 1
          name10 (List.replicate 4075 1) (List.replicate 4075 (1 : Nat)).length) ∧
    4096 <
      (newUpdateChunk (resourceHash cheapOracles.H 1 1 rsrc10.nameHash) none 1 1
        name10 (List.replicate 4075 1) 4075).SData.length := by
  refine ⟨?_, ?_, ?_⟩
  · rw [List.length_replicate, name10_length]; norm_num
  · exact update_cheap_ok (List.replicate 4075 1)
      (by rw [List.length_replicate]; omega)
      (by rw [List.length_replicate]; omega)
  · rw [newUpdateChunk_SData_length, List.length_replicate, name10_length]
    omega

/-!
## C8 — `conns ⊆ addrs` invariant of the Kademlia table
-/

/-- Each completed operation preserves `conns ⊆ addrs`. -/
theorem kadStep_subset {base : Addr} {s t : KadState} (h : KadStep base s t)
    (hs : s.conns ⊆ s.addrs) : t.conns ⊆ t.addrs := by
  cases h with
  | register ps hps => exact hs.trans Finset.subset_union_left
  | registerSelf ps hps => exact hs
  | onConn p =>
    by_cases hp : p ∈ s.conns
    · rw [if_pos hp]; exact hs
    · rw [if_neg hp]; exact Finset.insert_subset_insert _ hs
  | offConn p hp => exact (Finset.erase_subset _ _).trans hs

/-- C8: in every state reachable from a new table by completed `Register`,
`On` and `Off` operations, every live connection is also a known address,
and hence `conns.Size() ≤ addrs.Size()`. -/
theorem C8_conns_subset_addrs (base : Addr) (s : KadState)
    (h : kadReachable base s) :
    s.conns ⊆ s.addrs ∧ s.conns.card ≤ s.addrs.card := by
  have hsub : s.conns ⊆ s.addrs := by
    induction h with
    | refl => exact Finset.Subset.refl _
    | tail h1 h2 ih => exact kadStep_subset h2 ih
  exact ⟨hsub, Finset.card_le_card hsub⟩

/-- C8 witness: the invariant at the state reached by a single `On`. -/
theorem C8_witness :
    (⟨insert [false] ∅, insert [false] ∅⟩ : KadState).conns ⊆
      (⟨insert [false] ∅, insert [false] ∅⟩ : KadState).addrs ∧
    (⟨insert [false] ∅, insert [false] ∅⟩ : KadState).conns.card ≤
      (⟨insert [false] ∅, insert [false] ∅⟩ : KadState).addrs.card := by
  have h1 := @KadStep.onConn [true] ⟨∅, ∅⟩ [false]
  rw [if_neg (Finset.not_mem_empty _)] at h1
  exact C8_conns_subset_addrs [true] _ (.single h1)

/-!
## C7 — `Kademlia.depth`
-/

theorem insertDesc_perm (x : Nat) (l : List Nat) : (insertDesc x l).Perm (x :: l) := by
  induction l with
  | nil => exact .refl _
  | cons y ys ih =>
    unfold insertDesc
    by_cases h1 : y < x
    · rw [if_pos h1]
    · rw [if_neg h1]
      exact (ih.cons y).trans (List.Perm.swap x y ys)

theorem sortDesc_perm (l : List Nat) : (sortDesc l).Perm l := by
  induction l with
  | nil => exact .refl _
  | cons x xs ih => exact (insertDesc_perm x (sortDesc xs)).trans (ih.cons x)

theorem mem_insertDesc {x y : Nat} {l : List Nat} (h : y ∈ insertDesc x l) :
    y = x ∨ y ∈ l := by
  have := (insertDesc_perm x l).mem_iff.1 h
  simpa using this

theorem insertDesc_sorted (x : Nat) {l : List Nat} (h : l.Sorted (· ≥ ·)) :
    (insertDesc x l).Sorted (· ≥ ·) := by
  induction l with
  | nil => simp [insertDesc]
  | cons y ys ih =>
    rcases List.sorted_cons.1 h with ⟨hy, hys⟩
    unfold insertDesc
    by_cases h1 : y < x
    · rw [if_pos h1]
      refine List.sorted_cons.2 ⟨?_, h⟩
      intro b hb
      rcases List.mem_cons.1 hb with rfl | hb
      · exact h1.le
      · exact le_trans (hy b hb) h1.le
    · rw [if_neg h1]
      refine List.sorted_cons.2 ⟨?_, ih hys⟩
      intro b hb
      rcases mem_insertDesc hb with rfl | hb
      · exact Nat.le_of_not_lt h1
      · exact hy b hb

theorem sortDesc_sorted (l : List Nat) : (sortDesc l).Sorted (· ≥ ·) := by
  induction l with
  | nil => exact List.sorted_nil
  | cons x xs ih => exact insertDesc_sorted x ih

theorem depthLoop_getD (m : Nat) (l : List Nat) :
    ∀ (s dep : Nat), s < m → m ≤ s + l.length →
      depthLoop m l s dep = l.getD (m - s - 1) 0 := by
  induction l with
  | nil =>
    intro s dep h1 h2
    simp at h2
    omega
  | cons p rest ih =>
    intro s dep h1 h2
    unfold depthLoop
    by_cases hc : s + 1 < m
    · rw [if_pos hc, ih (s + 1) p hc (by simp at h2 ⊢; omega)]
      have he : m - s - 1 = (m - (s + 1) - 1) + 1 := by omega
      rw [he, List.getD_cons_succ]
    · rw [if_neg hc]
      have he : m - s - 1 = 0 := by omega
      rw [he, List.getD_cons_zero]

/-- On a descending-sorted list, the `(m-1)`-th entry is met by at least
`m` entries, and any threshold met by at least `m` entries is at most the
`(m-1)`-th entry. -/
theorem sorted_countP_bounds {l : List Nat} (hs : l.Sorted (· ≥ ·)) :
    ∀ m : Nat, 1 ≤ m → m ≤ l.length →
      (m ≤ l.countP (fun x => decide (l.getD (m - 1) 0 ≤ x))) ∧
      (∀ d : Nat, m ≤ l.countP (fun x => decide (d ≤ x)) → d ≤ l.getD (m - 1) 0) := by
  induction l with
  | nil =>
    intro m h1 h2
    simp at h2
    omega
  | cons p rest ih =>
    intro m h1 h2
    rcases List.sorted_cons.1 hs with ⟨hp, hrest⟩
    obtain ⟨m', rfl⟩ : ∃ m', m = m' + 1 := ⟨m - 1, by omega⟩
    by_cases hm' : 1 ≤ m'
    · have hlen : m' ≤ rest.length := by simp at h2; omega
      obtain ⟨iha, ihb⟩ := ih hrest m' hm' hlen
      have hmem : rest.getD (m' - 1) 0 ∈ rest := by
        rw [List.getD_eq_getElem rest 0 (by omega)]
        exact List.getElem_mem _
      have hidx : m' + 1 - 1 = m' - 1 + 1 := by omega
      constructor
      · have hpg : rest.getD (m' - 1) 0 ≤ p := hp _ hmem
        have hcnt : (p :: rest).countP
            (fun x => decide ((p :: rest).getD (m' + 1 - 1) 0 ≤ x)) =
            rest.countP (fun x => decide (rest.getD (m' - 1) 0 ≤ x)) + 1 := by
          simp only [hidx, List.getD_cons_succ, List.countP_cons,
            decide_eq_true_eq]
          rw [if_pos hpg]
        rw [hcnt]
        omega
      · intro d hd
        have hsplit : (p :: rest).countP (fun x => decide (d ≤ x)) ≤
            rest.countP (fun x => decide (d ≤ x)) + 1 := by
          simp only [List.countP_cons]
          split_ifs <;> omega
        have hge : m' ≤ rest.countP (fun x => decide (d ≤ x)) := by omega
        have := ihb d hge
        simpa [hidx] using this
    · have hm0 : m' = 0 := by omega
      subst hm0
      constructor
      · show 0 + 1 ≤ (p :: rest).countP (fun x => decide (p ≤ x))
        simp [List.countP_cons]
      · intro d hd
        show d ≤ p
        have hpos : 0 < (p :: rest).countP (fun x => decide (d ≤ x)) := by omega
        rcases List.countP_pos_iff.1 hpos with ⟨a, ha, hda⟩
        have hap : a ≤ p := by
          rcases List.mem_cons.1 ha with rfl | ha
          · exact le_refl _
          · exact hp a ha
        exact le_trans (of_decide_eq_true hda) hap

/-- C7 counterexample: with `MinProxBinSize = 2` and live connections at
proximity orders 5, 3 and 1, `depth()` returns 3, but the *smallest* `d`
with at least 2 connections at `PO ≥ d` is 0 (every `d ≤ 3` qualifies);
and with connections at proximity orders 5 and 0, `depth()` returns 0
although the table holds 2 ≥ MinProxBinSize live connections, refuting
`depth() = 0 ↔ conns.size < MinProxBinSize`. -/
theorem C7_counterexample :
    kadDepth kadBase [kadA 5, kadA 3, kadA 1] 2 = 3 ∧
    2 ≤ List.countP (fun a => decide ((0 : Nat) ≤ proximity kadBase a))
      [kadA 5, kadA 3, kadA 1] ∧
    (0 : Nat) ≠ 3 ∧
    kadDepth kadBase [kadA 5, kadA 0] 2 = 0 ∧
    ¬ ([kadA 5, kadA 0] : List Addr).length < 2 := by decide

/-- C7 (amended): when at least `MinProxBinSize` live connections exist,
`depth()` is the *largest* proximity order `d` such that the number of
live connections at `PO ≥ d` is at least `MinProxBinSize` (equivalently,
the PO of the `MinProxBinSize`-th nearest connection), and `0` otherwise;
`depth() = 0` iff the table has fewer than `MinProxBinSize` live
connections or the `MinProxBinSize`-th nearest connection has `PO 0`. -/
theorem C7_depth_amended (base : Addr) (conns : List Addr) (m : Nat)
    (hm : 1 ≤ m) :
    (m ≤ conns.length →
      IsGreatest {d | m ≤ conns.countP (fun a => decide (d ≤ proximity base a))}
        (kadDepth base conns m)) ∧
    (kadDepth base conns m = 0 ↔
      conns.length < m ∨
        conns.countP (fun a => decide (1 ≤ proximity base a)) < m) := by
  have hperm : (sortDesc (conns.map (proximity base))).Perm
      (conns.map (proximity base)) := sortDesc_perm _
  have hlen : (sortDesc (conns.map (proximity base))).length = conns.length := by
    rw [hperm.length_eq, List.length_map]
  have hcount : ∀ d : Nat,
      conns.countP (fun a => decide (d ≤ proximity base a)) =
        (sortDesc (conns.map (proximity base))).countP
          (fun x => decide (d ≤ x)) := by
    intro d
    rw [hperm.countP_eq, List.countP_map]
    rfl
  have hsorted := sortDesc_sorted (conns.map (proximity base))
  have hdep : m ≤ conns.length → kadDepth base conns m =
      (sortDesc (conns.map (proximity base))).getD (m - 1) 0 := by
    intro hml
    rw [kadDepth, if_neg (by omega)]
    exact depthLoop_getD m (sortDesc (conns.map (proximity base))) 0 0
      (by omega) (by omega)
  constructor
  · intro hml
    obtain ⟨ha, hb⟩ := sorted_countP_bounds hsorted m hm (by omega)
    constructor
    · show m ≤ conns.countP _
      rw [hcount, hdep hml]
      exact ha
    · intro d hd
      rw [Set.mem_setOf_eq, hcount] at hd
      rw [hdep hml]
      exact hb d hd
  · by_cases hml : conns.length < m
    · rw [kadDepth, if_pos hml]
      simp [hml]
    · obtain ⟨ha, hb⟩ := sorted_countP_bounds hsorted m hm (by omega)
      rw [hdep (by omega)]
      constructor
      · intro h0
        refine .inr ?_
        by_contra hc
        push_neg at hc
        rw [hcount] at hc
        have := hb 1 hc
        omega
      · rintro (h | h)
        · omega
        · by_contra h0
          have h1 : 1 ≤ (sortDesc (conns.map (proximity base))).getD (m - 1) 0 := by
            omega
          have hmono : (sortDesc (conns.map (proximity base))).countP
              (fun x => decide ((sortDesc (conns.map (proximity base))).getD
                (m - 1) 0 ≤ x)) ≤
              (sortDesc (conns.map (proximity base))).countP
                (fun x => decide (1 ≤ x)) := by
            refine List.countP_mono_left ?_
            intro a _ hdec
            exact decide_eq_true (le_trans h1 (of_decide_eq_true hdec))
          rw [hcount] at h
          omega

/-- C7 witness: the amended characterisation evaluated on three live
connections at proximity orders 5, 3 and 1 with `MinProxBinSize = 2`. -/
theorem C7_witness :
    IsGreatest {d | 2 ≤ List.countP
      (fun a => decide (d ≤ proximity kadBase a)) [kadA 5, kadA 3, kadA 1]}
      (kadDepth kadBase [kadA 5, kadA 3, kadA 1] 2) :=
  (C7_depth_amended kadBase [kadA 5, kadA 3, kadA 1] 2 (by decide)).1 (by decide)

/-!
## C2 — wire round-trip

Supporting lemmas: behaviour of the two uvarint readers on exact-multihash
payloads with appended bytes, and the header-field decodes of
`newUpdateChunk` output.
-/

theorem uvarintAux_append (t : Bytes) :
    ∀ (l : Bytes) (x s i : Nat), 0 < (uvarintAux l x s i).2 →
      uvarintAux (l ++ t) x s i = uvarintAux l x s i := by
  intro l
  induction l with
  | nil => intro x s i h; simp [uvarintAux] at h
  | cons b rest ih =>
    intro x s i h
    by_cases hb : b < 128
    · by_cases hov : 9 < i ∨ (i = 9 ∧ 1 < b)
      · rw [uvarintAux, if_pos hb, if_pos hov] at h
        simp at h <;> omega
      · simp only [List.cons_append, uvarintAux, if_pos hb, if_neg hov]
    · simp only [List.cons_append, uvarintAux, if_neg hb]
      rw [uvarintAux, if_neg hb] at h
      exact ih _ _ _ h

theorem uvarintAux_high : ∀ (l : Bytes) (x s i : Nat), 10 ≤ i →
    (uvarintAux l x s i).2 ≤ 0 := by
  intro l
  induction l with
  | nil => intro x s i _; simp [uvarintAux]
  | cons b rest ih =>
    intro x s i hi
    unfold uvarintAux
    by_cases hb : b < 128
    · rw [if_pos hb, if_pos (by omega : 9 < i ∨ (i = 9 ∧ 1 < b))]
      simp
      omega
    · rw [if_neg hb]
      exact ih _ _ _ (by omega)

theorem uvarintAux_pos_lt : ∀ (l : Bytes) (x s i : Nat),
    0 < (uvarintAux l x s i).2 → (i : Int) < (uvarintAux l x s i).2 := by
  intro l
  induction l with
  | nil => intro x s i h; simp [uvarintAux] at h
  | cons b rest ih =>
    intro x s i h
    unfold uvarintAux at h ⊢
    by_cases hb : b < 128
    · rw [if_pos hb] at h ⊢
      by_cases hov : 9 < i ∨ (i = 9 ∧ 1 < b)
      · rw [if_pos hov] at h; simp at h <;> omega
      · rw [if_neg hov] at h ⊢; simp <;> omega
    · rw [if_neg hb] at h ⊢
      have := ih _ _ _ h
      omega

theorem uvarintAux_le_len : ∀ (l : Bytes) (x s i : Nat),
    0 < (uvarintAux l x s i).2 → (uvarintAux l x s i).2.toNat ≤ i + l.length := by
  intro l
  induction l with
  | nil => intro x s i h; simp [uvarintAux] at h
  | cons b rest ih =>
    intro x s i h
    unfold uvarintAux at h ⊢
    by_cases hb : b < 128
    · rw [if_pos hb] at h ⊢
      by_cases hov : 9 < i ∨ (i = 9 ∧ 1 < b)
      · rw [if_pos hov] at h; simp at h <;> omega
      · rw [if_neg hov] at h ⊢; simp <;> omega
    · rw [if_neg hb] at h ⊢
      have := ih _ _ _ h
      simp only [List.length_cons]
      omega

theorem readUvarintAux_eq : ∀ (l : Bytes) (x s i : Nat), i ≤ 10 →
    0 < (uvarintAux l x s i).2 →
    readUvarintAux (10 - i) l x s =
      some ((uvarintAux l x s i).1, l.drop ((uvarintAux l x s i).2.toNat - i)) := by
  intro l
  induction l with
  | nil => intro x s i _ h; simp [uvarintAux] at h
  | cons b rest ih =>
    intro x s i hi h
    by_cases hb : b < 128
    · by_cases hov : 9 < i ∨ (i = 9 ∧ 1 < b)
      · rw [uvarintAux, if_pos hb, if_pos hov] at h
        simp at h <;> omega
      · have hi9 : i ≤ 9 := by omega
        rw [uvarintAux, if_pos hb, if_neg hov] at h ⊢
        rw [show 10 - i = (9 - i) + 1 by omega]
        rw [readUvarintAux, if_pos hb,
          if_neg (by omega : ¬((9 : Nat) - i = 0 ∧ 1 < b))]
        simp
    · have hi9 : i ≤ 9 := by
        by_contra hc
        have h10 : (10 : Nat) ≤ i := by omega
        have := uvarintAux_high (b :: rest) x s i h10
        omega
      rw [uvarintAux, if_neg hb] at h ⊢
      have hlt := uvarintAux_pos_lt rest ((x ||| (b % 128 <<< s)) % 2 ^ 64) (s + 7)
        (i + 1) h
      rw [show 10 - i = (10 - (i + 1)) + 1 by omega]
      rw [readUvarintAux, if_neg hb]
      rw [ih _ _ (i + 1) (by omega) h]
      have hdrop : (b :: rest).drop
          ((uvarintAux rest ((x ||| (b % 128 <<< s)) % 2 ^ 64) (s + 7) (i + 1)).2.toNat - i) =
          rest.drop
            ((uvarintAux rest ((x ||| (b % 128 <<< s)) % 2 ^ 64) (s + 7) (i + 1)).2.toNat -
              (i + 1)) := by
        rw [show (uvarintAux rest ((x ||| (b % 128 <<< s)) % 2 ^ 64) (s + 7) (i + 1)).2.toNat - i =
          ((uvarintAux rest ((x ||| (b % 128 <<< s)) % 2 ^ 64) (s + 7) (i + 1)).2.toNat - (i + 1)) + 1
          by omega]
        exact List.drop_succ_cons
      rw [hdrop]

/-- `binary.ReadUvarint` agrees with `binary.Uvarint` whenever the latter
reads a terminated varint. -/
theorem readUvarint_of_uvarint (l : Bytes) (h : 0 < (uvarint l).2) :
    readUvarint l = some ((uvarint l).1, l.drop (uvarint l).2.toNat) := by
  have := readUvarintAux_eq l 0 0 0 (by omega) h
  simpa [readUvarint, uvarint] using this

theorem mhExactB_spec {data : Bytes} (h : mhExactB data = true) :
    0 < (uvarint data).2 ∧
    0 < (uvarint (data.drop (uvarint data).2.toNat)).2 ∧
    (uvarint (data.drop (uvarint data).2.toNat)).1 < 2 ^ 63 ∧
    data.length = (uvarint data).2.toNat +
      (uvarint (data.drop (uvarint data).2.toNat)).2.toNat +
      (uvarint (data.drop (uvarint data).2.toNat)).1 := by
  simp only [mhExactB] at h
  split_ifs at h with h1 h2
  rw [Bool.and_eq_true, decide_eq_true_eq, decide_eq_true_eq] at h
  exact ⟨by omega, by omega, h.1, h.2⟩

/-- On an exact multihash payload, `isMultihash` ignores appended bytes
and returns exactly the payload length. -/
theorem isMultihash_exact {data : Bytes} (h : mhExactB data = true)
    (tail : Bytes) : isMultihash (data ++ tail) = data.length := by
  obtain ⟨h1, h2, h3, h4⟩ := mhExactB_spec h
  have hc1le : (uvarint data).2.toNat ≤ data.length := by
    have := uvarintAux_le_len data 0 0 0 h1
    omega
  have e1 : uvarint (data ++ tail) = uvarint data :=
    uvarintAux_append tail data 0 0 0 h1
  have e2 : (data ++ tail).drop (uvarint data).2.toNat =
      data.drop (uvarint data).2.toNat ++ tail :=
    List.drop_append_of_le_length hc1le
  have e3 : uvarint (data.drop (uvarint data).2.toNat ++ tail) =
      uvarint (data.drop (uvarint data).2.toNat) :=
    uvarintAux_append tail _ 0 0 0 h2
  simp only [isMultihash, e1, e2, e3]
  rw [if_neg (by omega), if_neg (by omega), if_pos h3]
  rw [if_neg (by simp only [List.length_append]; omega)]
  omega

/-- Both `ReadUvarint` reads of the multihash prefix succeed on an exact
multihash payload with appended bytes. -/
theorem readUvarint_mh_prefix {data : Bytes} (h : mhExactB data = true)
    (tail : Bytes) :
    readUvarint (data ++ tail) =
      some ((uvarint data).1, data.drop (uvarint data).2.toNat ++ tail) ∧
    readUvarint (data.drop (uvarint data).2.toNat ++ tail) =
      some ((uvarint (data.drop (uvarint data).2.toNat)).1,
        (data.drop (uvarint data).2.toNat).drop
          (uvarint (data.drop (uvarint data).2.toNat)).2.toNat ++ tail) := by
  obtain ⟨h1, h2, h3, h4⟩ := mhExactB_spec h
  have hc1le : (uvarint data).2.toNat ≤ data.length := by
    have := uvarintAux_le_len data 0 0 0 h1
    omega
  have hc2le : (uvarint (data.drop (uvarint data).2.toNat)).2.toNat ≤
      (data.drop (uvarint data).2.toNat).length := by
    have h5 : (uvarint (data.drop (uvarint data).2.toNat)).2.toNat ≤
        0 + (data.drop (uvarint data).2.toNat).length :=
      uvarintAux_le_len _ 0 0 0 h2
    omega
  have e1 : uvarint (data ++ tail) = uvarint data :=
    uvarintAux_append tail data 0 0 0 h1
  have e3 : uvarint (data.drop (uvarint data).2.toNat ++ tail) =
      uvarint (data.drop (uvarint data).2.toNat) :=
    uvarintAux_append tail _ 0 0 0 h2
  constructor
  · rw [readUvarint_of_uvarint (data ++ tail) (by rw [e1]; exact h1), e1]
    rw [List.drop_append_of_le_length hc1le]
  · rw [readUvarint_of_uvarint _ (by rw [e3]; exact h2), e3]
    rw [List.drop_append_of_le_length hc2le]

theorem nu_read0 (key : Bytes) (sig : Option Bytes) (p v : Nat)
    (name data : Bytes) (dlv : Nat) :
    readU16 (newUpdateChunk key sig p v name data dlv).SData 0 =
      (name.length + 8) % 2 ^ 16 := by
  show (name.length + 8) % 256 + 256 * ((name.length + 8) / 256 % 256 + 256 * 0) = _
  omega

theorem nu_read2 (key : Bytes) (sig : Option Bytes) (p v : Nat)
    (name data : Bytes) (dlv : Nat) :
    readU16 (newUpdateChunk key sig p v name data dlv).SData 2 = dlv % 2 ^ 16 := by
  show dlv % 256 + 256 * (dlv / 256 % 256 + 256 * 0) = _
  omega

theorem nu_read4 (key : Bytes) (sig : Option Bytes) (p v : Nat)
    (name data : Bytes) (dlv : Nat) :
    readU32 (newUpdateChunk key sig p v name data dlv).SData 4 = p % 2 ^ 32 := by
  show p % 256 + 256 * (p / 2 ^ 8 % 256 + 256 * (p / 2 ^ 16 % 256 +
    256 * (p / 2 ^ 24 % 256 + 256 * 0))) = _
  omega

theorem nu_read8 (key : Bytes) (sig : Option Bytes) (p v : Nat)
    (name data : Bytes) (dlv : Nat) :
    readU32 (newUpdateChunk key sig p v name data dlv).SData 8 = v % 2 ^ 32 := by
  show v % 256 + 256 * (v / 2 ^ 8 % 256 + 256 * (v / 2 ^ 16 % 256 +
    256 * (v / 2 ^ 24 % 256 + 256 * 0))) = _
  omega

theorem nu_drop12 (key : Bytes) (sig : Option Bytes) (p v : Nat)
    (name data : Bytes) (dlv : Nat) :
    (newUpdateChunk key sig p v name data dlv).SData.drop 12 =
      (name ++ data) ++ sig.getD [] := by
  cases sig <;> rfl

theorem c2_upd_nonmh_none (key : Bytes) (p v : Nat) (name data : Bytes)
    (hp : p < 2 ^ 32) (hv : v < 2 ^ 32)
    (hname : 1 ≤ name.length) (hdata : 1 ≤ data.length)
    (hsize : 12 + name.length + data.length + 65 ≤ 4096) :
    parseUpdate false ((newUpdateChunk key none p v name data data.length).SData) =
      .ok ⟨none, p, v, name, data, false⟩ := by
  have A : (newUpdateChunk key none p v name data data.length).SData.length =
      12 + name.length + data.length := by
    rw [newUpdateChunk_SData_length]
    rfl
  have B := nu_read0 key none p v name data data.length
  have C := nu_read2 key none p v name data data.length
  have D4 := nu_read4 key none p v name data data.length
  have D8 := nu_read8 key none p v name data data.length
  rw [Nat.mod_eq_of_lt (by omega)] at B
  rw [Nat.mod_eq_of_lt (by omega)] at C
  rw [Nat.mod_eq_of_lt hp] at D4
  rw [Nat.mod_eq_of_lt hv] at D8
  have hdr12 : (newUpdateChunk key none p v name data data.length).SData.drop 12 =
      name ++ data := by
    rw [nu_drop12]
    simp only [Option.getD_none, List.append_nil]
  have hdrc : (newUpdateChunk key none p v name data data.length).SData.drop
      (4 + (name.length + 8)) = data := by
    rw [show 4 + (name.length + 8) = 12 + name.length by omega, ← List.drop_drop,
      hdr12, List.drop_left]
  simp only [parseUpdate, parseUpdateRest, A, B, C, D4, D8]
  rw [if_neg (by omega), if_neg (by omega : ¬data.length = 0),
    Nat.mod_eq_of_lt (by omega : name.length + 8 + data.length + 4 < 2 ^ 16),
    if_neg (by omega), if_neg (by omega), hdr12,
    show name.length + 8 - 8 = name.length by omega, List.take_left,
    if_neg (by omega : ¬data.length = 0), if_neg (by omega), hdrc,
    List.take_length, if_neg Bool.false_ne_true]

theorem c2_upd_nonmh_some (key : Bytes) (s : Bytes) (p v : Nat) (name data : Bytes)
    (hp : p < 2 ^ 32) (hv : v < 2 ^ 32)
    (hname : 1 ≤ name.length) (hdata : 1 ≤ data.length)
    (hsize : 12 + name.length + data.length + 65 ≤ 4096)
    (hs65 : s.length = 65) :
    parseUpdate true ((newUpdateChunk key (some s) p v name data data.length).SData) =
      .ok ⟨some s, p, v, name, data, false⟩ := by
  have A : (newUpdateChunk key (some s) p v name data data.length).SData.length =
      12 + name.length + data.length + 65 := by
    rw [newUpdateChunk_SData_length]
    show _ + s.length = _
    omega
  have B := nu_read0 key (some s) p v name data data.length
  have C := nu_read2 key (some s) p v name data data.length
  have D4 := nu_read4 key (some s) p v name data data.length
  have D8 := nu_read8 key (some s) p v name data data.length
  rw [Nat.mod_eq_of_lt (by omega)] at B
  rw [Nat.mod_eq_of_lt (by omega)] at C
  rw [Nat.mod_eq_of_lt hp] at D4
  rw [Nat.mod_eq_of_lt hv] at D8
  have hdr12 : (newUpdateChunk key (some s) p v name data data.length).SData.drop 12 =
      name ++ (data ++ s) := by
    rw [nu_drop12, List.append_assoc]
    rfl
  have hdrc : (newUpdateChunk key (some s) p v name data data.length).SData.drop
      (4 + (name.length + 8)) = data ++ s := by
    rw [show 4 + (name.length + 8) = 12 + name.length by omega, ← List.drop_drop,
      hdr12, List.drop_left]
  have hdrs : (newUpdateChunk key (some s) p v name data data.length).SData.drop
      (4 + (name.length + 8) + data.length) = s := by
    rw [show 4 + (name.length + 8) + data.length =
      (4 + (name.length + 8)) + data.length by omega, ← List.drop_drop,
      hdrc, List.drop_left]
  simp only [parseUpdate, parseUpdateRest, A, B, C, D4, D8]
  rw [if_neg (by omega), if_neg (by omega : ¬data.length = 0),
    Nat.mod_eq_of_lt (by omega : name.length + 8 + data.length + 4 < 2 ^ 16),
    if_neg (by omega), if_neg (by omega), hdr12,
    show name.length + 8 - 8 = name.length by omega, List.take_left,
    if_neg (by omega : ¬data.length = 0), if_neg (by omega), hdrc,
    List.take_left, if_pos trivial, if_neg (by omega), hdrs,
    List.take_of_length_le (by omega)]

theorem c2_upd_mh_none (key : Bytes) (p v : Nat) (name data : Bytes)
    (hp : p < 2 ^ 32) (hv : v < 2 ^ 32)
    (hname2 : 2 ≤ name.length) (hdata : 1 ≤ data.length)
    (hsize : 12 + name.length + data.length + 65 ≤ 4096)
    (hmx : mhExactB data = true) :
    parseUpdate false ((newUpdateChunk key none p v name data 0).SData) =
      .ok ⟨none, p, v, name, data, true⟩ := by
  have A : (newUpdateChunk key none p v name data 0).SData.length =
      12 + name.length + data.length := by
    rw [newUpdateChunk_SData_length]
    rfl
  have B := nu_read0 key none p v name data 0
  have C := nu_read2 key none p v name data 0
  have D4 := nu_read4 key none p v name data 0
  have D8 := nu_read8 key none p v name data 0
  rw [Nat.mod_eq_of_lt (by omega)] at B
  rw [Nat.zero_mod] at C
  rw [Nat.mod_eq_of_lt hp] at D4
  rw [Nat.mod_eq_of_lt hv] at D8
  have hdr12 : (newUpdateChunk key none p v name data 0).SData.drop 12 =
      name ++ data := by
    rw [nu_drop12]
    simp only [Option.getD_none, List.append_nil]
  have hdro : (newUpdateChunk key none p v name data 0).SData.drop
      (name.length + 8 + 4) = data := by
    rw [show name.length + 8 + 4 = 12 + name.length by omega, ← List.drop_drop,
      hdr12, List.drop_left]
  have hdrc : (newUpdateChunk key none p v name data 0).SData.drop
      (4 + (name.length + 8)) = data := by
    rw [show 4 + (name.length + 8) = 12 + name.length by omega, ← List.drop_drop,
      hdr12, List.drop_left]
  obtain ⟨h1, h2, h3, h4⟩ := mhExactB_spec hmx
  have hruv : readUvarint data =
      some ((uvarint data).1, data.drop (uvarint data).2.toNat) :=
    readUvarint_of_uvarint data h1
  have hruv2 : readUvarint (data.drop (uvarint data).2.toNat) =
      some ((uvarint (data.drop (uvarint data).2.toNat)).1,
        (data.drop (uvarint data).2.toNat).drop
          (uvarint (data.drop (uvarint data).2.toNat)).2.toNat) :=
    readUvarint_of_uvarint _ h2
  have hL : isMultihash ((newUpdateChunk key none p v name data 0).SData.drop
      (4 + (name.length + 8))) = (data.length : Int) := by
    rw [hdrc]
    have := isMultihash_exact hmx []
    rwa [List.append_nil] at this
  simp only [parseUpdate, parseUpdateRest, A, B, C, D4, D8]
  rw [if_neg (by omega), if_pos trivial,
    Nat.mod_eq_of_lt (by omega : name.length + 8 + 4 < 2 ^ 16),
    if_neg (by omega), hdro, hruv]
  simp only []
  rw [hruv2]
  simp only []
  rw [if_neg (by omega), if_neg (by omega), if_pos trivial, hL,
    if_neg (by push_cast; omega), if_neg (by omega : ¬(data.length : Int) < 0),
    if_neg Bool.false_ne_true, Int.toNat_natCast, hdrc, List.take_length,
    hdr12, show name.length + 8 - 8 = name.length by omega, List.take_left]

theorem c2_upd_mh_some (key : Bytes) (s : Bytes) (p v : Nat) (name data : Bytes)
    (hp : p < 2 ^ 32) (hv : v < 2 ^ 32)
    (hname2 : 2 ≤ name.length) (hdata : 1 ≤ data.length)
    (hsize : 12 + name.length + data.length + 65 ≤ 4096)
    (hs65 : s.length = 65)
    (hmx : mhExactB data = true) :
    parseUpdate true ((newUpdateChunk key (some s) p v name data 0).SData) =
      .ok ⟨some s, p, v, name, data, true⟩ := by
  have A : (newUpdateChunk key (some s) p v name data 0).SData.length =
      12 + name.length + data.length + 65 := by
    rw [newUpdateChunk_SData_length]
    show _ + s.length = _
    omega
  have B := nu_read0 key (some s) p v name data 0
  have C := nu_read2 key (some s) p v name data 0
  have D4 := nu_read4 key (some s) p v name data 0
  have D8 := nu_read8 key (some s) p v name data 0
  rw [Nat.mod_eq_of_lt (by omega)] at B
  rw [Nat.zero_mod] at C
  rw [Nat.mod_eq_of_lt hp] at D4
  rw [Nat.mod_eq_of_lt hv] at D8
  have hdr12 : (newUpdateChunk key (some s) p v name data 0).SData.drop 12 =
      name ++ (data ++ s) := by
    rw [nu_drop12, List.append_assoc]
    rfl
  have hdro : (newUpdateChunk key (some s) p v name data 0).SData.drop
      (name.length + 8 + 4) = data ++ s := by
    rw [show name.length + 8 + 4 = 12 + name.length by omega, ← List.drop_drop,
      hdr12, List.drop_left]
  have hdrc : (newUpdateChunk key (some s) p v name data 0).SData.drop
      (4 + (name.length + 8)) = data ++ s := by
    rw [show 4 + (name.length + 8) = 12 + name.length by omega, ← List.drop_drop,
      hdr12, List.drop_left]
  have hdrs : (newUpdateChunk key (some s) p v name data 0).SData.drop
      (4 + (name.length + 8) + data.length) = s := by
    rw [show 4 + (name.length + 8) + data.length =
      (4 + (name.length + 8)) + data.length by omega, ← List.drop_drop,
      hdrc, List.drop_left]
  obtain ⟨hruv, hruv2⟩ := readUvarint_mh_prefix hmx s
  have hL : isMultihash ((newUpdateChunk key (some s) p v name data 0).SData.drop
      (4 + (name.length + 8))) = (data.length : Int) := by
    rw [hdrc]
    exact isMultihash_exact hmx s
  simp only [parseUpdate, parseUpdateRest, A, B, C, D4, D8]
  rw [if_neg (by omega), if_pos trivial,
    Nat.mod_eq_of_lt (by omega : name.length + 8 + 4 < 2 ^ 16),
    if_neg (by omega), hdro, hruv]
  simp only []
  rw [hruv2]
  simp only []
  rw [if_neg (by omega), if_neg (by omega), if_pos trivial, hL,
    if_neg (by push_cast; omega), if_neg (by omega : ¬(data.length : Int) < 0),
    if_pos trivial, Int.toNat_natCast, hdrc]
  rw [if_neg (by omega), hdrs, List.take_of_length_le (by omega),
    List.take_left, hdr12, show name.length + 8 - 8 = name.length by omega,
    List.take_left]

theorem metaRoundtrip (Hh : Bytes → Bytes) (startBlock frequency : Nat)
    (mname : Bytes) (hsb : startBlock < 2 ^ 64) (hfr : frequency < 2 ^ 64) :
    metaUnmarshal ((newMetaChunk Hh mname startBlock frequency).SData.drop 2) =
      (startBlock, frequency, mname) := by
  have m1 : readU64 ((newMetaChunk Hh mname startBlock frequency).SData.drop 2) 0 =
      startBlock := by
    show startBlock % 256 + 256 * (startBlock / 2 ^ 8 % 256 +
      256 * (startBlock / 2 ^ 16 % 256 + 256 * (startBlock / 2 ^ 24 % 256 +
      256 * (startBlock / 2 ^ 32 % 256 + 256 * (startBlock / 2 ^ 40 % 256 +
      256 * (startBlock / 2 ^ 48 % 256 + 256 * (startBlock / 2 ^ 56 % 256 +
      256 * 0))))))) = startBlock
    omega
  have m2 : readU64 ((newMetaChunk Hh mname startBlock frequency).SData.drop 2) 8 =
      frequency := by
    show frequency % 256 + 256 * (frequency / 2 ^ 8 % 256 +
      256 * (frequency / 2 ^ 16 % 256 + 256 * (frequency / 2 ^ 24 % 256 +
      256 * (frequency / 2 ^ 32 % 256 + 256 * (frequency / 2 ^ 40 % 256 +
      256 * (frequency / 2 ^ 48 % 256 + 256 * (frequency / 2 ^ 56 % 256 +
      256 * 0))))))) = frequency
    omega
  show (readU64 _ 0, readU64 _ 8, _) = _
  rw [m1, m2,
    show (((newMetaChunk Hh mname startBlock frequency).SData.drop 2).drop 16) =
      mname from rfl]

/-- C2 counterexample: the update round-trip fails on a well-formed record.
For the single-character name `"a"` and the valid multihash payload
`[0x00, 0x01, 0x07]` (`isMultihash` accepts it, so `UpdateMultihash` would
publish it), the chunk built by `newUpdateChunk` with datalength 0 has
`headerlength + datalength + 4 = 13 < 14`, so `parseUpdate` rejects it
with `ErrNothingToReturn` instead of returning the record. -/
theorem C2_counterexample :
    isMultihash [0, 1, 7] ≠ 0 ∧
    mhExactB [0, 1, 7] = true ∧
    parseUpdate false ((newUpdateChunk [] none 1 1 [97] [0, 1, 7] 0).SData) =
      .err .nothingToReturn := by decide

/-- C2 (amended): encoding then decoding is the identity, except that a
multihash update additionally needs a name of at least two bytes (for a
one-byte name the encoded chunk fails `parseUpdate`'s minimum-length
check) and a payload that is exactly one well-formed multihash.  For every
metadata record, decoding the chunk body produced by `newMetaChunk`
recovers startBlock, frequency and identifier; for every update record
(period and version below `2^32`, non-empty name, non-empty payload that
fits in one chunk, multihash flag with the above caveats, optional 65-byte
signature), `parseUpdate` applied to the `newUpdateChunk` output, on a
handler configured with a signer exactly when the update is signed,
returns the same signature, period, version, name, payload and multihash
flag. -/
theorem C2_roundtrip_amended (Hh : Bytes → Bytes)
    (startBlock frequency : Nat) (mname : Bytes)
    (hsb : startBlock < 2 ^ 64) (hfr : frequency < 2 ^ 64)
    (key : Bytes) (sig : Option Bytes) (p v : Nat) (name data : Bytes)
    (mh : Bool) (hp : p < 2 ^ 32) (hv : v < 2 ^ 32)
    (hname : 1 ≤ name.length) (hdata : 1 ≤ data.length)
    (hsize : 12 + name.length + data.length + 65 ≤ 4096)
    (hs65 : ∀ s, sig = some s → s.length = 65)
    (hmh : mh = true → mhExactB data = true ∧ 2 ≤ name.length) :
    metaUnmarshal ((newMetaChunk Hh mname startBlock frequency).SData.drop 2) =
      (startBlock, frequency, mname) ∧
    parseUpdate sig.isSome
      ((newUpdateChunk key sig p v name data
        (if mh then 0 else data.length)).SData) =
      .ok ⟨sig, p, v, name, data, mh⟩ := by
  refine ⟨metaRoundtrip Hh startBlock frequency mname hsb hfr, ?_⟩
  cases sig with
  | none =>
    cases mh with
    | false => exact c2_upd_nonmh_none key p v name data hp hv hname hdata hsize
    | true =>
      obtain ⟨hmx, hn2⟩ := hmh rfl
      exact c2_upd_mh_none key p v name data hp hv hn2 hdata hsize hmx
  | some s =>
    have hs : s.length = 65 := hs65 s rfl
    cases mh with
    | false =>
      exact c2_upd_nonmh_some key s p v name data hp hv hname hdata hsize hs
    | true =>
      obtain ⟨hmx, hn2⟩ := hmh rfl
      exact c2_upd_mh_some key s p v name data hp hv hn2 hdata hsize hs hmx

/-- C2 witness: the amended round-trip evaluated on a concrete metadata
record and a concrete unsigned update. -/
theorem C2_witness :
    metaUnmarshal ((newMetaChunk (fun b => b) [97, 98] 4200 42).SData.drop 2) =
      (4200, 42, [97, 98]) ∧
    parseUpdate (none : Option Bytes).isSome
      ((newUpdateChunk [] none 2 1 [97, 98] [5, 6]
        (if false then 0 else ([5, 6] : Bytes).length)).SData) =
      .ok ⟨none, 2, 1, [97, 98], [5, 6], false⟩ :=
  C2_roundtrip_amended (fun b => b) 4200 42 [97, 98] (by decide) (by decide)
    [] none 2 1 [97, 98] [5, 6] false (by decide) (by decide) (by decide)
    (by decide) (by decide) (fun s hs => Option.noConfusion hs)
    (fun hm => absurd hm (by decide))


/-!
## C1 — the update chunk key
-/
theorem updateFinish_ok {o : Oracles} {key : Bytes} {sig : Option Bytes}
    {np ver : Nat} {name data : Bytes} {mh : Bool} {k : Bytes} {c : Chunk}
    (h : updateFinish o key sig np ver name data mh = .ok (k, c)) :
    k = key ∧ c = newUpdateChunk key sig np ver name data
      (if mh then 0 else data.length) := by
  unfold updateFinish at h
  cases hput : o.putOk with
  | false => rw [hput] at h; simp at h
  | true =>
    rw [hput] at h
    simp only [if_true] at h
    cases h
    exact ⟨rfl, rfl⟩

theorem key_ne_content_hash {Hh : Bytes → Bytes} (hinj : Function.Injective Hh)
    {p v : Nat} {nh body : Bytes} (hnh : nh.length = 32)
    (hlen : body.length ≠ 40) :
    Hh (u32le p ++ u32le v ++ nh) ≠ Hh body := by
  intro he
  have heq := hinj he
  have hl : (u32le p ++ u32le v ++ nh).length = 40 := by simp [u32le, hnh]
  rw [heq] at hl
  exact hlen hl

/-- C1: `resourceHash` computes `H(period_LE32 ‖ version_LE32 ‖ nameHash)`,
every chunk published by `update` carries exactly that key (over the
resource entry's stored name hash), and — reading the configured hash as
collision-free, i.e. injective — the key is not the content hash of the
chunk body: with a signer the body is at least 79 bytes while the key
preimage is 40 bytes, and without a signer the same holds whenever the
body length differs from 40 (equal lengths would require a hash-input
collision, excluded by the injectivity reading). -/
theorem C1_update_chunk_key (o : Oracles) :
    (∀ (p v : Nat) (nh : Bytes), 1 ≤ p → 1 ≤ v →
      resourceHash o.H p v nh = o.H (u32le p ++ u32le v ++ nh)) ∧
    (∀ (resources : Bytes → Option Rsrc) (store : Option Unit)
        (name data : Bytes) (multihash : Bool) (k : Bytes) (c : Chunk),
      (∀ f d s, o.signer = some f → f d = some s → s.length = 65) →
      update o resources store name data multihash = .ok (k, c) →
      ∃ rsrc p v, resources (o.ensNode name) = some rsrc ∧
        k = resourceHash o.H p v rsrc.nameHash ∧
        k = o.H (u32le p ++ u32le v ++ rsrc.nameHash) ∧
        c.key = k ∧
        (Function.Injective o.H → rsrc.nameHash.length = 32 →
          (o.signer.isSome = true ∨ 12 + name.length + data.length ≠ 40) →
          k ≠ o.H c.SData)) := by
  refine ⟨fun p v nh _ _ => rfl, ?_⟩
  intro resources store name data multihash k c hsig h
  simp only [update] at h
  by_cases h0 : data.length = 0
  · rw [if_pos h0] at h; simp at h
  rw [if_neg h0] at h
  cases hst : store with
  | none => rw [hst] at h; simp at h
  | some u =>
    rw [hst] at h
    simp only [] at h
    cases hrr : resources (o.ensNode name) with
    | none => rw [hrr] at h; simp at h
    | some rsrc =>
      rw [hrr] at h
      simp only [] at h
      by_cases hsy : rsrc.synced = false
      · rw [if_pos hsy] at h; simp at h
      rw [if_neg hsy] at h
      cases hsg : o.signer with
      | none =>
        rw [hsg] at h
        simp only [Option.isSome_none, Bool.false_eq_true, if_false] at h
        split at h
        · simp at h
        cases hgb : o.getBlock with
        | none => rw [hgb] at h; simp at h
        | some cb =>
          rw [hgb] at h
          simp only [] at h
          cases hnp : getNextPeriod rsrc.startBlock cb rsrc.frequency with
          | panic => rw [hnp] at h; simp at h
          | err e => rw [hnp] at h; simp at h
          | ok np =>
            rw [hnp] at h
            simp only [] at h
            obtain ⟨hk, hc⟩ := updateFinish_ok h
            refine ⟨rsrc, np,
              (if rsrc.lastPeriod = np then (rsrc.version + 1) % 2 ^ 32 else 1),
              rfl, hk, hk, by subst hk hc; rfl, ?_⟩
            intro hinj hnh hcase
            have hlen : c.SData.length = 12 + name.length + data.length := by
              rw [hc, newUpdateChunk_SData_length]
              rfl
            have hne : c.SData.length ≠ 40 := by
              rcases hcase with hcase | hcase
              · simp at hcase
              · omega
            rw [hk]
            exact key_ne_content_hash hinj hnh hne
      | some sgn =>
        rw [hsg] at h
        simp only [Option.isSome_some, eq_self_iff_true, if_true] at h
        split at h
        · simp at h
        cases hgb : o.getBlock with
        | none => rw [hgb] at h; simp at h
        | some cb =>
          rw [hgb] at h
          simp only [] at h
          cases hnp : getNextPeriod rsrc.startBlock cb rsrc.frequency with
          | panic => rw [hnp] at h; simp at h
          | err e => rw [hnp] at h; simp at h
          | ok np =>
            rw [hnp] at h
            simp only [] at h
            split at h
            · simp at h
            rename_i sg hsd
            split at h
            · simp at h
            rename_i addr hrec
            split at h
            · simp at h
            split at h
            · simp at h
            obtain ⟨hk, hc⟩ := updateFinish_ok h
            have hsg65 : sg.length = 65 := hsig sgn _ sg hsg hsd
            refine ⟨rsrc, np,
              (if rsrc.lastPeriod = np then (rsrc.version + 1) % 2 ^ 32 else 1),
              rfl, hk, hk, by subst hk hc; rfl, ?_⟩
            intro hinj hnh _
            have hlen : c.SData.length =
                12 + name.length + data.length + 65 := by
              rw [hc, newUpdateChunk_SData_length]
              simp only []
              omega
            rw [hk]
            exact key_ne_content_hash hinj hnh (by omega)

/-- C1 witness: the key law evaluated on a concrete unsigned update. -/
theorem C1_witness :
    ∃ k c, update idOracles resAB (some ()) [97, 98] [5, 6] false = .ok (k, c) ∧
      ∃ rsrc p v, resAB (idOracles.ensNode [97, 98]) = some rsrc ∧
        k = resourceHash idOracles.H p v rsrc.nameHash ∧
        k = idOracles.H (u32le p ++ u32le v ++ rsrc.nameHash) ∧
        c.key = k ∧
        (Function.Injective idOracles.H → rsrc.nameHash.length = 32 →
          (idOracles.signer.isSome = true ∨
            12 + ([97, 98] : Bytes).length + ([5, 6] : Bytes).length ≠ 40) →
          k ≠ idOracles.H c.SData) := by
  refine ⟨_, _, rfl, ?_⟩
  exact (C1_update_chunk_key idOracles).2 resAB (some ()) [97, 98] [5, 6] false
    _ _ (fun f d s hf _ => Option.noConfusion hf) rfl


/-!
## C4 — `Validate`
-/
/-- C4 (amended): `Validate(key, data)` classifies chunks as the claim
says, with two corrections: the digest for signature recovery is
`H(key ‖ payload)` — the parsed payload only, not the whole
body-without-signature — and the metadata fallback accepts chunks with
`len(data) > 18` (strictly), not `≥ 18`.  When the parse panics (see C9),
`Validate` panics rather than classifying. -/
theorem C4_validate_amended (o : Oracles) (V : Bytes → Bytes → Bool × Option Unit)
    (hV : o.ownerValidator = some V) (key d : Bytes) :
    (∀ u : Upd, parseUpdate o.signer.isSome d = .ok u → u.sig = none →
      (Validate o key d = .ok true ↔
        resourceHash o.H u.period u.version (o.ensNode u.name) = key)) ∧
    (∀ (u : Upd) (s : Bytes), parseUpdate o.signer.isSome d = .ok u →
      u.sig = some s →
      (Validate o key d = .ok true ↔
        ∃ addr, o.recover (keyDataHash o.H key u.data) s = some addr ∧
          (V u.name addr).1 = true)) ∧
    ((parseUpdate o.signer.isSome d).isErr = true →
      (Validate o key d = .ok true ↔ 18 < d.length ∧ d.take 2 = [0, 0])) ∧
    (parseUpdate o.signer.isSome d = .panic → Validate o key d = .panic) := by
  refine ⟨?_, ?_, ?_, ?_⟩
  · intro u hu hnil
    unfold Validate
    rw [hu]
    simp only []
    rw [hnil]
    simp only [Res.ok.injEq, decide_eq_true_eq]
  · intro u s hu hs
    unfold Validate
    rw [hu]
    simp only []
    rw [hs]
    simp only []
    cases hrec : o.recover (keyDataHash o.H key u.data) s with
    | none => simp [hrec]
    | some addr =>
      simp only [checkAccess, hV, Res.ok.injEq, Option.some.injEq]
      constructor
      · intro hok
        exact ⟨addr, rfl, hok⟩
      · rintro ⟨addr', rfl, hok⟩
        exact hok
  · intro herr
    cases hp : parseUpdate o.signer.isSome d with
    | ok u => rw [hp] at herr; simp [Res.isErr] at herr
    | panic => rw [hp] at herr; simp [Res.isErr] at herr
    | err e =>
      unfold Validate
      rw [hp]
      simp only [Res.ok.injEq, Bool.and_eq_true, decide_eq_true_eq]
  · intro hp
    unfold Validate
    rw [hp]

/-- C4 counterexample: an 18-byte all-zero chunk fails to parse, has two
leading zero bytes and length ≥ 18, so the claim says `Validate` accepts
it; the code requires strictly more than 18 bytes and rejects it. -/
theorem C4_counterexample :
    Validate vOracles (List.replicate 32 0) (List.replicate 18 0) = .ok false ∧
    18 ≤ (List.replicate 18 (0 : Nat)).length ∧
    (List.replicate 18 (0 : Nat)).take 2 = [0, 0] ∧
    (parseUpdate vOracles.signer.isSome (List.replicate 18 0)).isErr = true := by
  decide

/-- C4 witness: the amended parse-failure clause evaluated on a 19-byte
all-zero chunk. -/
theorem C4_witness :
    Validate vOracles (List.replicate 32 0) (List.replicate 19 0) = .ok true := by
  have h := (C4_validate_amended vOracles (fun _ _ => (true, none)) rfl
    (List.replicate 32 0) (List.replicate 19 0)).2.2.1 (by decide)
  exact h.mpr (by decide)


/-!
## C5 — outcome classification of `parseUpdate`

Helper lemmas characterise the error and panic outcomes of
`parseUpdateRest` and the tags of the errors; the claim's theorem then
classifies every input of `parseUpdate`.
-/
/-- Every `Res` value is a success exactly when it is neither an error nor
a panic. -/
theorem res_classes {α : Type} (r : Res α) :
    r.isOk = true ↔ r.isErr ≠ true ∧ r ≠ .panic := by
  cases r <;> simp [Res.isOk, Res.isErr]

/-- Characterisation of the error outcomes of `parseUpdateRest`: the
length-consistency check fails, or (in the `datalength = 0` branch) the
multihash body misaligns with the chunk end. -/
theorem parseUpdateRest_isErr (hs : Bool) (d : Bytes) (hl dl : Nat) :
    (parseUpdateRest hs d hl dl).isErr = true ↔
      (d.length < (hl + dl + 4) % 2 ^ 16 ∨ (hl + dl + 4) % 2 ^ 16 < 14) ∨
      (¬(d.length < (hl + dl + 4) % 2 ^ 16 ∨ (hl + dl + 4) % 2 ^ 16 < 14) ∧
        ¬(hl < 8 ∨ d.length < hl + 4) ∧ dl = 0 ∧
        ((d.length : Int) ≠ 4 + hl + isMultihash (d.drop (4 + hl)) ∧
          (d.length : Int) < 4 + hl + isMultihash (d.drop (4 + hl)) + 65)) := by
  unfold parseUpdateRest
  dsimp only
  simp only [apply_ite Res.isErr]
  split_ifs <;> simp_all [Res.isErr]

/-- Characterisation of the panic outcomes of `parseUpdateRest`: the name
slice (`headerlength < 8` or `headerlength + 4 > len`), the negative
multihash length in `make([]byte, n)`, the data slice, or the signature
slice goes out of range. -/
theorem parseUpdateRest_panic (hs : Bool) (d : Bytes) (hl dl : Nat) :
    parseUpdateRest hs d hl dl = .panic ↔
      (¬(d.length < (hl + dl + 4) % 2 ^ 16 ∨ (hl + dl + 4) % 2 ^ 16 < 14) ∧
        (hl < 8 ∨ d.length < hl + 4)) ∨
      (¬(d.length < (hl + dl + 4) % 2 ^ 16 ∨ (hl + dl + 4) % 2 ^ 16 < 14) ∧
        ¬(hl < 8 ∨ d.length < hl + 4) ∧ dl = 0 ∧
        ¬((d.length : Int) ≠ 4 + hl + isMultihash (d.drop (4 + hl)) ∧
          (d.length : Int) < 4 + hl + isMultihash (d.drop (4 + hl)) + 65) ∧
        isMultihash (d.drop (4 + hl)) < 0) ∨
      (¬(d.length < (hl + dl + 4) % 2 ^ 16 ∨ (hl + dl + 4) % 2 ^ 16 < 14) ∧
        ¬(hl < 8 ∨ d.length < hl + 4) ∧ dl = 0 ∧
        ¬((d.length : Int) ≠ 4 + hl + isMultihash (d.drop (4 + hl)) ∧
          (d.length : Int) < 4 + hl + isMultihash (d.drop (4 + hl)) + 65) ∧
        ¬isMultihash (d.drop (4 + hl)) < 0 ∧ hs = true ∧
        d.length < 4 + hl + (isMultihash (d.drop (4 + hl))).toNat + 65) ∨
      (¬(d.length < (hl + dl + 4) % 2 ^ 16 ∨ (hl + dl + 4) % 2 ^ 16 < 14) ∧
        ¬(hl < 8 ∨ d.length < hl + 4) ∧ ¬dl = 0 ∧
        d.length < 4 + hl + dl) ∨
      (¬(d.length < (hl + dl + 4) % 2 ^ 16 ∨ (hl + dl + 4) % 2 ^ 16 < 14) ∧
        ¬(hl < 8 ∨ d.length < hl + 4) ∧ ¬dl = 0 ∧
        ¬d.length < 4 + hl + dl ∧ hs = true ∧
        d.length < 4 + hl + dl + 65) := by
  unfold parseUpdateRest
  dsimp only
  split_ifs <;> simp_all

/-- Every error of `parseUpdateRest` is tagged `ErrNothingToReturn` or is
the untagged `"Corrupt multihash data"` error. -/
theorem parseUpdateRest_err_tags (hs : Bool) (d : Bytes) (hl dl : Nat) (e : GoErr)
    (h : parseUpdateRest hs d hl dl = Res.err e) :
    e = GoErr.nothingToReturn ∨ e = GoErr.plain := by
  unfold parseUpdateRest at h
  dsimp only at h
  split_ifs at h <;> first
    | (injection h with h2; subst h2; simp)
    | injection h

/-- Every error of `parseUpdate` is tagged `ErrNothingToReturn` or
`ErrCorruptData`, or is the untagged `"Corrupt multihash data"` error. -/
theorem parseUpdate_err_tags (hs : Bool) (d : Bytes) (e : GoErr)
    (h : parseUpdate hs d = Res.err e) :
    e = GoErr.nothingToReturn ∨ e = GoErr.corruptData ∨ e = GoErr.plain := by
  have rest : ∀ hl dl, parseUpdateRest hs d hl dl = Res.err e →
      e = GoErr.nothingToReturn ∨ e = GoErr.corruptData ∨ e = GoErr.plain := by
    intro hl dl hr
    rcases parseUpdateRest_err_tags hs d hl dl e hr with h1 | h1
    · exact Or.inl h1
    · exact Or.inr (Or.inr h1)
  unfold parseUpdate at h
  dsimp only at h
  repeat' split at h
  all_goals first
    | (injection h with h2; subst h2; simp)
    | injection h
    | exact rest _ _ h

/-- Complete classification of `parseUpdate`: it errors exactly on the
inputs `c5errB` accepts and panics exactly on the inputs `c5panicB`
accepts. -/
theorem parseUpdate_classified (hs : Bool) (d : Bytes) :
    ((parseUpdate hs d).isErr = true ↔ c5errB d = true) ∧
    (parseUpdate hs d = Res.panic ↔ c5panicB hs d = true) := by
  by_cases h14 : d.length < 14
  · unfold parseUpdate
    dsimp only
    rw [if_pos h14]
    constructor
    · simp [Res.isErr, c5errB, h14]
    · simp [c5panicB, c5preOK, show ¬ (14 ≤ d.length) from by omega]
  · by_cases hdl : readU16 d 2 = 0
    · unfold parseUpdate
      dsimp only
      rw [if_neg h14, if_pos hdl]
      by_cases ho : d.length < (readU16 d 0 + 4) % 2 ^ 16
      · rw [if_pos ho]
        constructor
        · simp [Res.isErr, c5errB, c5preOK, hdl, h14,
            show ¬ ((readU16 d 0 + 4) % 65536 ≤ d.length) from by omega]
        · simp [c5panicB, c5preOK, hdl,
            show (14 : Nat) ≤ d.length from by omega,
            show d.length < (readU16 d 0 + 4) % 65536 from by omega]
      · rw [if_neg ho]
        rcases huv : readUvarint (List.drop ((readU16 d 0 + 4) % 2 ^ 16) d)
          with _ | ⟨u, t⟩
        · simp only []
          have htwo : twoUvarintsOK (List.drop ((readU16 d 0 + 4) % 65536) d)
              = false := by
            show twoUvarintsOK (List.drop ((readU16 d 0 + 4) % 2 ^ 16) d) = false
            unfold twoUvarintsOK
            rw [huv]
          constructor
          · simp [Res.isErr, c5errB, c5preOK, hdl, h14, htwo,
              show (readU16 d 0 + 4) % 65536 ≤ d.length from by omega,
              show (14 : Nat) ≤ d.length from by omega] <;> omega
          · simp [c5panicB, c5preOK, hdl, ho, htwo] <;> omega
        · simp only []
          rcases huv2 : readUvarint t with _ | ⟨w1, w2⟩
          · simp only []
            have htwo : twoUvarintsOK (List.drop ((readU16 d 0 + 4) % 65536) d)
                = false := by
              show twoUvarintsOK (List.drop ((readU16 d 0 + 4) % 2 ^ 16) d) = false
              unfold twoUvarintsOK
              rw [huv]
              show (readUvarint t).isSome = false
              rw [huv2]
              rfl
            constructor
            · simp [Res.isErr, c5errB, c5preOK, hdl, h14, htwo,
                show (readU16 d 0 + 4) % 65536 ≤ d.length from by omega,
                show (14 : Nat) ≤ d.length from by omega] <;> omega
            · simp [c5panicB, c5preOK, hdl, ho, htwo] <;> omega
          · simp only []
            have htwo : twoUvarintsOK (List.drop ((readU16 d 0 + 4) % 65536) d)
                = true := by
              show twoUvarintsOK (List.drop ((readU16 d 0 + 4) % 2 ^ 16) d) = true
              unfold twoUvarintsOK
              rw [huv]
              show (readUvarint t).isSome = true
              rw [huv2]
              rfl
            constructor
            · rw [parseUpdateRest_isErr]
              simp [c5errB, c5preOK, c5exclOK, c5mhMisalign, hdl, h14, htwo,
                show (readU16 d 0 + 4) % 65536 ≤ d.length from by omega,
                show (14 : Nat) ≤ d.length from by omega] <;> omega
            · rw [parseUpdateRest_panic]
              cases hs <;>
                simp [c5panicB, c5preOK, c5exclOK, c5mhMisalign, hdl, ho, htwo,
                  show (readU16 d 0 + 4) % 65536 ≤ d.length from by omega,
                  show (14 : Nat) ≤ d.length from by omega] <;> omega
    · unfold parseUpdate
      dsimp only
      rw [if_neg h14, if_neg hdl]
      constructor
      · rw [parseUpdateRest_isErr]
        simp [c5errB, c5preOK, c5exclOK, c5mhMisalign, hdl, h14,
          show (14 : Nat) ≤ d.length from by omega] <;> omega
      · rw [parseUpdateRest_panic]
        cases hs <;>
          simp [c5panicB, c5preOK, c5exclOK, c5mhMisalign, hdl, h14,
            show (14 : Nat) ≤ d.length from by omega] <;> omega

/-- C5 (amended): the complete outcome classification of `parseUpdate`.
It returns an error value exactly on the inputs `c5errB` accepts: total
length below 14; an unreadable multihash-prefix varint (when the
`datalength` field is 0); `headerlength + datalength + 4` — computed
with Go's `uint16` wrap-around — exceeding the total length or below 14;
or a misaligned multihash body.  Contrary to the claim it can also crash:
it panics exactly on the inputs `c5panicB` accepts (among them every
chunk with `headerlength < 8`, i.e. a negative name length — a name
length of exactly 0 parses successfully rather than failing).  On every
other input it succeeds, and every error is tagged `ErrNothingToReturn`
or `ErrCorruptData` or is the untagged `"Corrupt multihash data"`
error. -/
theorem C5_parseUpdate_outcomes (hs : Bool) (d : Bytes) :
    ((parseUpdate hs d).isErr = true ↔ c5errB d = true) ∧
    (parseUpdate hs d = Res.panic ↔ c5panicB hs d = true) ∧
    ((parseUpdate hs d).isOk = true ↔
      (c5errB d = false ∧ c5panicB hs d = false)) ∧
    ∀ e, parseUpdate hs d = Res.err e →
      e = GoErr.nothingToReturn ∨ e = GoErr.corruptData ∨ e = GoErr.plain := by
  obtain ⟨he, hp⟩ := parseUpdate_classified hs d
  refine ⟨he, hp, ?_, fun e h => parseUpdate_err_tags hs d e h⟩
  simp [res_classes, he, hp]

/-- C5 counterexample: a chunk with `headerlength = 8` — name length
`headerlength − 8 = 0`, which the claim says must fail — parses
successfully to an update with an empty name; and a chunk with
`headerlength = 7` — name length −1 — makes `parseUpdate` panic
(`chunkdata[6:11]` with the name slice out of range) instead of
returning an error, refuting "returning an error value, never
crashing". -/
theorem C5_counterexample :
    parseUpdate false [8, 0, 2, 0, 1, 0, 0, 0, 1, 0, 0, 0, 97, 98] =
      Res.ok ⟨none, 1, 1, [], [97, 98], false⟩ ∧
    readU16 [8, 0, 2, 0, 1, 0, 0, 0, 1, 0, 0, 0, 97, 98] 0 = 8 ∧
    parseUpdate false [7, 0, 3, 0, 1, 0, 0, 0, 1, 0, 0, 0, 97, 98] = Res.panic := by
  decide

/-- C5 witness: the classification applied to a concrete well-formed
unsigned chunk, whose parse succeeds. -/
theorem C5_witness :
    (parseUpdate false [10, 0, 2, 0, 1, 0, 0, 0, 1, 0, 0, 0, 97, 98, 5, 6]).isOk
      = true :=
  (C5_parseUpdate_outcomes false
      [10, 0, 2, 0, 1, 0, 0, 0, 1, 0, 0, 0, 97, 98, 5, 6]).2.2.1.mpr (by decide)
